import Mathlib

/-! protoc-gen-esp: the descriptor-to-JavaScript generator of `main.go`.

A shallow embedding of `generateResponse` and of the template `tmpl` it executes.

* The descriptor types are the ones of `descriptorpb` / `pluginpb`, restricted to the
  fields the program reads.  A Go `*string` / `*bool` field is an `Option`; a repeated
  field is a `List` of (non-nil) elements, which is what `proto.Unmarshal` builds.
* A Go `string` is a Lean `String` (a sequence of Unicode scalar values).
* `tmpl.Execute` writes into a buffer and may stop with an error; it is embedded as a
  function into `Except ExecError String`, the text written on success.  Every text
  chunk of the template is transcribed verbatim; the trim markers `{{-` and `-}}` are
  applied by `trimRightSpace` / `trimLeftSpace`, as the template lexer does.
* A panic inside a function called from the template is recovered by the template
  package and returned by `Execute` as an error (Go 1.12 and later).
* The helper `dict` is embedded on its own (`dict`, `dictLoop`); as its two calls in the
  template always succeed, the block `DefineEnum` takes the two values they bind as the
  record `EnumDot`.
-/

namespace ProtocGenEsp

/-! ## Descriptor model -/

/-- The part of `descriptorpb.EnumValueDescriptorProto` the template reads. -/
structure EnumValueDescriptorProto where
  Name : Option String
deriving DecidableEq, Repr

/-- The part of `descriptorpb.EnumDescriptorProto` the template reads. -/
structure EnumDescriptorProto where
  Name : Option String
  Value : List EnumValueDescriptorProto
deriving DecidableEq, Repr

/-- The part of `descriptorpb.FieldDescriptorProto` the template reads. -/
structure FieldDescriptorProto where
  JsonName : Option String
  Proto3Optional : Option Bool
deriving DecidableEq, Repr

/-- The part of `descriptorpb.DescriptorProto` the template reads. -/
structure DescriptorProto where
  Name : Option String
  Field : List FieldDescriptorProto
  EnumType : List EnumDescriptorProto
deriving DecidableEq, Repr

/-- The part of `descriptorpb.MethodDescriptorProto` the template reads. -/
structure MethodDescriptorProto where
  Name : Option String
  OutputType : Option String
deriving DecidableEq, Repr

/-- The part of `descriptorpb.ServiceDescriptorProto` the template reads. -/
structure ServiceDescriptorProto where
  Name : Option String
  Method : List MethodDescriptorProto
deriving DecidableEq, Repr

/-- The part of `descriptorpb.FileDescriptorProto` the program reads. -/
structure FileDescriptorProto where
  Name : Option String
  Package : Option String
  MessageType : List DescriptorProto
  EnumType : List EnumDescriptorProto
  Service : List ServiceDescriptorProto
deriving DecidableEq, Repr

/-- The generated getter `(*FileDescriptorProto).GetName`: the name, or `""` when unset. -/
def FileDescriptorProto.GetName (file : FileDescriptorProto) : String :=
  match file.Name with
  | some s => s
  | none => ""

/-- The part of `pluginpb.CodeGeneratorRequest` the program reads. -/
structure CodeGeneratorRequest where
  ProtoFile : List FileDescriptorProto
deriving DecidableEq, Repr

/-- The two fields of `pluginpb.CodeGeneratorResponse_File` the program sets. -/
structure CodeGeneratorResponse_File where
  Name : Option String
  Content : Option String
deriving DecidableEq, Repr

/-- The part of `pluginpb.CodeGeneratorResponse` the program sets. -/
structure CodeGeneratorResponse where
  File : List CodeGeneratorResponse_File
deriving DecidableEq, Repr

/-- The helper `proto.String`: a pointer to the given string. -/
def proto_String (s : String) : Option String := some s

/-! ## Go library functions used by the program -/

/-- The predicate `unicode.IsSpace`: the Latin-1 spaces and the other `White_Space` runes. -/
def isSpace (c : Char) : Bool :=
  let n := c.toNat
  (0x09 ≤ n && n ≤ 0x0D) || n == 0x20 || n == 0x85 || n == 0xA0 || n == 0x1680 ||
    (0x2000 ≤ n && n ≤ 0x200A) || n == 0x2028 || n == 0x2029 || n == 0x202F ||
    n == 0x205F || n == 0x3000

/-- The function `strings.TrimSpace`: all leading and trailing white space removed. -/
def TrimSpace (s : String) : String :=
  ⟨((s.data.dropWhile isSpace).reverse.dropWhile isSpace).reverse⟩

/-- The function `strings.HasPrefix`. -/
def HasPrefix (s pre : String) : Bool := pre.data.isPrefixOf s.data

/-- The function `strings.TrimPrefix`: `s` without the leading `pre`, or `s` itself. -/
def TrimPrefix (s pre : String) : String :=
  if HasPrefix s pre then ⟨s.data.drop pre.data.length⟩ else s

/-- The function `strings.HasSuffix`. -/
def HasSuffix (s suf : String) : Bool := suf.data.isSuffixOf s.data

/-- The function `strings.TrimSuffix`: `s` without the trailing `suf`, or `s` itself. -/
def TrimSuffix (s suf : String) : String :=
  if HasSuffix s suf then ⟨s.data.take (s.data.length - suf.data.length)⟩ else s

/-- The loop of `filepath.Ext`, walking the path from its last character backwards:
`rev` holds the characters still to visit (last first), `acc` the ones already passed. -/
def extScan : List Char → List Char → List Char
  | [], _ => []
  | c :: rev, acc =>
    if c == '/' then []
    else if c == '.' then c :: acc
    else extScan rev (c :: acc)

/-- The function `filepath.Ext` (with `/` as the path separator). -/
def Ext (path : String) : String := ⟨extScan path.data.reverse []⟩

/-! ## The template engine -/

/-- The ways `tmpl.Execute` fails on this template. -/
inductive ExecError where
  /-- A nil `*string` passed where a `string` argument is expected
  ("dereference of nil pointer of type string"). -/
  | nilDeref
  /-- A template function panicked (a nil pointer dereference); the panic is returned
  as the error of the call. -/
  | callPanic
deriving DecidableEq, Repr

/-- The error of `generateResponse`: `fmt.Errorf("error executing template: %w", err)`. -/
inductive GenError where
  | executingTemplate (err : ExecError)
deriving DecidableEq, Repr

deriving instance DecidableEq for Except

/-- The characters a trim marker removes (the lexer's `spaceChars`). -/
def isTrimSpace (c : Char) : Bool := c == ' ' || c == '\t' || c == '\r' || c == '\n'

/-- Text followed by an action opening with `{{-`: its trailing white space is dropped. -/
def trimRightSpace (s : String) : String :=
  ⟨(s.data.reverse.dropWhile isTrimSpace).reverse⟩

/-- Text preceded by an action closing with `-}}`: its leading white space is dropped. -/
def trimLeftSpace (s : String) : String := ⟨s.data.dropWhile isTrimSpace⟩

/-- Printing a `*string` value with `{{ . }}`: the pointed-to string, and `<nil>` for a
nil pointer. -/
def printPtr (p : Option String) : String :=
  match p with
  | some s => s
  | none => "<nil>"

/-- Truth of a pointer value in `if` / `not`: a pointer is true when it is not nil
(the value it points to is not looked at). -/
def truthPtr {α : Type} (p : Option α) : Bool := p.isSome

/-- Passing a `*string` field as a `string` argument: one dereference, an error on nil. -/
def derefArg (p : Option String) : Except ExecError String :=
  match p with
  | some s => .ok s
  | none => .error .nilDeref

/-- The action `range` over a list whose body cannot fail. -/
def range {α : Type} (xs : List α) (body : α → String) : String :=
  match xs with
  | [] => ""
  | x :: rest => body x ++ range rest body

/-- The action `range $i, $v := ...`, the index counting from `i`. -/
def rangeIdx {α : Type} (xs : List α) (i : Int) (body : Int → α → String) : String :=
  match xs with
  | [] => ""
  | x :: rest => body i x ++ rangeIdx rest (i + 1) body

/-- The action `range` over a list whose body may fail: the first failure ends it. -/
def rangeE {α : Type} (xs : List α) (body : α → Except ExecError String) :
    Except ExecError String :=
  match xs with
  | [] => .ok ""
  | x :: rest =>
    match body x with
    | .error e => .error e
    | .ok s =>
      match rangeE rest body with
      | .error e => .error e
      | .ok t => .ok (s ++ t)

/-! ## The template's functions (`template.FuncMap`) -/

/-- The template function `DerefString`: `func(i *string) string { return *i }`. -/
def DerefString (i : Option String) : Except ExecError String :=
  match i with
  | some s => .ok s
  | none => .error .callPanic

/-- The template function `Subtract`: `func(a, b int) int { return a - b }`. -/
def Subtract (a b : Int) : Int := a - b

/-- The call `printf ".%s."` of the template. -/
def printfDots (s : String) : String := "." ++ s ++ "."

/-- A value handed to `dict` as `interface{}`: a string, a pointer to an enum descriptor
(the two kinds the template passes), or the nil interface. -/
inductive Value where
  | str (s : String)
  | enum (e : EnumDescriptorProto)
  | nil
deriving DecidableEq, Repr

/-- A Go `map[string]interface{}`, as the list of its bindings, one per key. -/
abbrev GoMap := List (String × Value)

/-- The assignment `dict[key] = v`: the binding of `key` is replaced or added. -/
def mapSet (dict : GoMap) (key : String) (v : Value) : GoMap :=
  (key, v) :: dict.filter (fun p => p.1 != key)

/-- The lookup `dict[key]`. -/
def mapGet (dict : GoMap) (key : String) : Option Value := dict.lookup key

/-- The loop of `dict`, from the position reached on: `values` holds the values from index
`i` on, `dict` the map built so far.  The access `values[i+1]` past the end (a panic) is
not reached after the length check of `dict`. -/
def dictLoop (values : List Value) (dict : GoMap) : Except String GoMap :=
  match values with
  | [] => .ok dict
  | Value.str key :: rest =>
    match rest with
    | v :: rest2 => dictLoop rest2 (mapSet dict key v)
    | [] => .error "index out of range"
  | _ :: _ => .error "dict keys must be strings"

/-- The template function `dict`. -/
def dict (values : List Value) : Except String GoMap :=
  if values.length % 2 != 0 then .error "invalid dict call"
  else dictLoop values []

/-! ## The template `tmpl` -/

/-- The data the two `template "DefineEnum"` actions pass, built by
`dict "Enum" e "Indent" s`. -/
structure EnumDot where
  Enum : EnumDescriptorProto
  Indent : String
deriving DecidableEq, Repr

/-- The block `{{ define "DefineEnum" }}`: the line `{{.Indent}}{{ .Enum.Name }} = {`, then
under `{{- range $i, $v := .Enum.Value }}` the line
`{{$.Indent}}<tab>{{ $v.Name }}: "{{ $v.Name }}"` followed by a comma when
`ne (Subtract (len $.Enum.Value) 1) $i`, then after `{{- end }}` the line `{{.Indent}}}`. -/
def DefineEnum (dot : EnumDot) : String :=
  "\n" ++ dot.Indent ++ printPtr dot.Enum.Name ++ trimRightSpace " = \x7b\n" ++
  rangeIdx dot.Enum.Value 0 (fun i v =>
    "\n" ++ dot.Indent ++ "\t" ++ printPtr v.Name ++ ": \"" ++ printPtr v.Name ++ "\"" ++
    (if Subtract (dot.Enum.Value.length : Int) 1 ≠ i then "," else "") ++
    trimRightSpace "\n") ++
  "\n" ++ dot.Indent ++ "\x7d\n"

/-- The resolved type name of a method:
`DerefString $.Package | printf ".%s." | TrimPrefix .OutputType`. -/
def resolveOutputType (file : FileDescriptorProto) (m : MethodDescriptorProto) :
    Except ExecError String :=
  match DerefString file.Package with
  | .error e => .error e
  | .ok pkg =>
    match derefArg m.OutputType with
    | .error e => .error e
    | .ok outputType => .ok (TrimPrefix outputType (printfDots pkg))

/-- The body of `{{ range .Method }}`: one client method.  The text ahead of the type name
reaches the buffer before the type name is resolved; as a failed execution leaves nothing
to the caller, the result is the whole text or the error. -/
def tmplMethod (file : FileDescriptorProto) (servicePin : ServiceDescriptorProto)
    (m : MethodDescriptorProto) : Except ExecError String :=
  match resolveOutputType file m with
  | .error e => .error e
  | .ok typeName => .ok (
    "\n\t" ++ printPtr m.Name ++ "(req, options) \x7b\n\t\treturn fetch(this.server+\"/" ++
    printPtr file.Package ++ "." ++ printPtr servicePin.Name ++ "/" ++ printPtr m.Name ++
    "\", \x7b\n\t\t\tmethod: 'POST',\n    \t\tbody: JSON.stringify(req),\n    \t\theaders: \x7b\n        \t\t'Content-Type': 'application/json',\n\t\t\t\t...options.headers,\n\t\t\t\t...this.options.headers\n\t\t\t\x7d\n    \t\x7d).then((response) => \x7b\n\t\t\treturn new " ++
    typeName ++ "(JSON.parse(response.text))\n\t\t\x7d)\n\t\x7d\n\t")

/-- The body of `{{ range .Service }}`: one client class.  The action
`{{ $servicePin := . }}` prints nothing and binds the service for the method bodies. -/
def tmplService (file : FileDescriptorProto) (s : ServiceDescriptorProto) :
    Except ExecError String :=
  match rangeE s.Method (tmplMethod file s) with
  | .error e => .error e
  | .ok methods => .ok (
    "\n" ++ "\nclass " ++ printPtr s.Name ++
    "Client \x7b\n\tconstructor(server, options) \x7b\n\t\tthis.server = server\n\t\tthis.options = options\n\t\x7d\n\n\t" ++
    methods ++ "\n\x7d\n")

/-- The constructor of a message class, from `constructor(o) {` up to the accessors; its
loop is `{{- range .Field }}` ... `{{- end }}`. -/
def tmplConstructor (msg : DescriptorProto) : String :=
  trimRightSpace "\n\tconstructor(o) \x7b\n\t\t" ++
  range msg.Field (fun f =>
    "\n\t\t\tthis._" ++ printPtr f.JsonName ++ " = o." ++ printPtr f.JsonName ++
    trimRightSpace "\n\t\t") ++
  "\n\t\x7d\n\n\t"

/-- The accessors of a message class, the second `{{ range .Field }}`: a getter and a
setter for every field. -/
def tmplAccessors (msg : DescriptorProto) : String :=
  range msg.Field (fun f =>
    "\n\tget " ++ printPtr f.JsonName ++ "() \x7b\n\t\treturn this._" ++ printPtr f.JsonName ++
    " \n\t\x7d\n\n\tset " ++ printPtr f.JsonName ++ "(" ++ printPtr f.JsonName ++
    ") \x7b\n\t\tthis._" ++ printPtr f.JsonName ++ " = " ++ printPtr f.JsonName ++ "\n\t\x7d\n\t")

/-- The method `toJSON` of a message class, up to the end of the class; its loop is
`{{ range .Field -}}`, the check stands between `{{ if not .Proto3Optional }}` and
`{{- end }}`. -/
def tmplToJSON (msg : DescriptorProto) : String :=
  "\n\ttoJSON() \x7b\n\t\tobj := new Object()\n\t\t" ++
  range msg.Field (fun f =>
    trimLeftSpace "\n\t\t" ++
    (if !(truthPtr f.Proto3Optional) then
      "\n\t\tif this._" ++ printPtr f.JsonName ++ " === undefined \x7b\n\t\t\tthrow 'Field " ++
      printPtr f.JsonName ++
      trimRightSpace " is both undefined and not optional'\n\t\t\x7d\n\t\t"
    else "") ++
    "\n\t\tobj." ++ printPtr f.JsonName ++ " = this._" ++ printPtr f.JsonName ++ "\n\t\t") ++
  "\n\t\treturn obj\n\t\x7d\n\x7d\n"

/-- The body of `{{ range .MessageType }}`: one message class, with its nested enums
(`template "DefineEnum" dict "Enum" . "Indent" "\t"`). -/
def tmplMessage (msg : DescriptorProto) : String :=
  "\nclass " ++ printPtr msg.Name ++ " \x7b\n\t" ++
  range msg.EnumType (fun e => "\n\t" ++ DefineEnum ⟨e, "\t"⟩ ++ "\n\t") ++
  tmplConstructor msg ++ tmplAccessors msg ++ tmplToJSON msg

/-- The method `tmpl.Execute` on one file: the text written to the buffer, or the error.
The top-level template is the text around the `define` block, the services, the top-level
enums (`template "DefineEnum" dict "Enum" . "Indent" ""`) and the messages. -/
def tmplExecute (file : FileDescriptorProto) : Except ExecError String :=
  match rangeE file.Service (tmplService file) with
  | .error e => .error e
  | .ok services => .ok (
    " \n" ++ "\n" ++ services ++ "\n\n" ++
    range file.EnumType (fun e => "\n" ++ DefineEnum ⟨e, ""⟩ ++ "\n") ++ "\n\n" ++
    range file.MessageType tmplMessage ++ "\n\t")

/-! ## `generateResponse` -/

/-- The loop of `generateResponse` over `req.ProtoFile`; `resp` is the list `resp.File`
built so far. -/
def generateLoop (files : List FileDescriptorProto) (resp : List CodeGeneratorResponse_File) :
    Except GenError CodeGeneratorResponse :=
  match files with
  | [] => .ok ⟨resp⟩
  | file :: rest =>
    match tmplExecute file with
    | .error err => .error (.executingTemplate err)
    | .ok buf =>
      let result := TrimSpace buf
      if result ≠ "" then
        generateLoop rest (resp ++ [{
          Name := proto_String (TrimSuffix file.GetName (Ext file.GetName) ++ ".js"),
          Content := proto_String result }])
      else
        generateLoop rest resp

/-- The function `generateResponse`. -/
def generateResponse (req : CodeGeneratorRequest) : Except GenError CodeGeneratorResponse :=
  generateLoop req.ProtoFile []

/-! ## Vocabulary of the specification -/

/-- The text `sub` occurs somewhere in `s`. -/
def Contains (s sub : String) : Prop := sub.data <:+: s.data

instance (s sub : String) : Decidable (Contains s sub) := by
  unfold Contains; infer_instance

/-- The text `suf` ends `s`. -/
def EndsWith (s suf : String) : Prop := suf.data <:+ s.data

instance (s suf : String) : Decidable (EndsWith s suf) := by
  unfold EndsWith; infer_instance

/-- The final `/`-separated element of a path. -/
def lastElement (path : List Char) : List Char :=
  (path.reverse.takeWhile (fun c => c != '/')).reverse

/-- The extension as the specification words it: the suffix starting at the last `.` of
the final path element, empty if that element has no `.`. -/
def specExt (path : String) : String :=
  if '.' ∈ lastElement path.data then
    ⟨'.' :: ((lastElement path.data).reverse.takeWhile (fun c => c != '.')).reverse⟩
  else ""

/-- The output name as the specification words it: the input name with its extension
removed and `.js` appended. -/
def specOutputName (name : String) : String :=
  ⟨name.data.take (name.data.length - (specExt name).data.length)⟩ ++ ".js"

/-- The trimmed text emitted for a file (empty when the template fails on it). -/
def trimmedText (file : FileDescriptorProto) : String :=
  match tmplExecute file with
  | .ok buf => TrimSpace buf
  | .error _ => ""

/-- The text emitted for a file (empty when the template fails on it). -/
def emittedText (file : FileDescriptorProto) : String :=
  match tmplExecute file with
  | .ok buf => buf
  | .error _ => ""

/-- The output list as the specification words it: the input list filtered by
non-emptiness of the trimmed text and mapped to (derived name, trimmed text). -/
def specResponse (files : List FileDescriptorProto) : List CodeGeneratorResponse_File :=
  (files.filter (fun f => trimmedText f ≠ "")).map (fun f =>
    { Name := some (TrimSuffix f.GetName (Ext f.GetName) ++ ".js"),
      Content := some (trimmedText f) })

/-- The lines of a text: the pieces between its newline characters. -/
def splitLines : List Char → List (List Char)
  | [] => [[]]
  | c :: cs =>
    if c = '\n' then [] :: splitLines cs
    else
      match splitLines cs with
      | l :: ls => (c :: l) :: ls
      | [] => [[c]]

/-- The entry lines of an enum block, for the values `vs` at the indices from `i` on, `n`
being the number of values of the enum: indent, tab, `v: "v"`, and a comma unless the
index is `n - 1`. -/
def entryLinesFrom (vs : List EnumValueDescriptorProto) (i n : Int) (indent : String) :
    List String :=
  match vs with
  | [] => []
  | v :: rest =>
    (indent ++ "\t" ++ printPtr v.Name ++ ": \"" ++ printPtr v.Name ++ "\"" ++
      (if n - 1 ≠ i then "," else "")) :: entryLinesFrom rest (i + 1) n indent

/-- The lines of an enum block at the given indent: an empty line, the head `E = {`, the
entry lines, the closing `}` and an empty line. -/
def enumLines (e : EnumDescriptorProto) (indent : String) : List String :=
  ["", indent ++ printPtr e.Name ++ " = \x7b"] ++
    entryLinesFrom e.Value 0 e.Value.length indent ++ [indent ++ "\x7d", ""]

/-- One more level of indent for a line: a tab before it, unless the line is empty. -/
def indentLine (l : String) : String := if l = "" then l else "\t" ++ l

/-- One more level of indent for a text: a tab before each of its non-empty lines. -/
def indentText (t : String) : String :=
  String.intercalate "\n" ((splitLines t.data).map (fun l => indentLine ⟨l⟩))

/-- Every service method of every file of the request has an output-type reference. -/
def outputTypesPresent (req : CodeGeneratorRequest) : Bool :=
  req.ProtoFile.all (fun f => f.Service.all (fun s => s.Method.all (fun m =>
    m.OutputType.isSome)))

/-! ## Sample inputs -/

/-- A file that declares nothing. -/
def emptyFile : FileDescriptorProto :=
  { Name := some "empty.proto", Package := some "pkg", MessageType := [], EnumType := [],
    Service := [] }

/-- A file of the given name that declares the one enum `E` with the one value `V`. -/
def enumFile (name : String) : FileDescriptorProto :=
  { Name := some name, Package := some "pkg", MessageType := [],
    EnumType := [⟨some "E", [⟨some "V"⟩]⟩], Service := [] }

/-- The file of the end-to-end scenario: package `demo`, message `Point` with the fields
`x` (flag unset) and `y` (flag true), service `Locator` with the method `Get`. -/
def demoFile : FileDescriptorProto :=
  { Name := some "demo.proto", Package := some "demo",
    MessageType := [{ Name := some "Point",
                      Field := [⟨some "x", none⟩, ⟨some "y", some true⟩],
                      EnumType := [] }],
    EnumType := [],
    Service := [⟨some "Locator", [⟨some "Get", some ".demo.Point"⟩]⟩] }

/-- A file whose one method has no output type; its package is `pkg`. -/
def absentTypeFile : FileDescriptorProto :=
  { Name := some "bad.proto", Package := some "pkg", MessageType := [], EnumType := [],
    Service := [⟨some "S", [⟨some "M", none⟩]⟩] }

/-- A file whose only declaration is the service `S`, which has no method. -/
def bareServiceFile : FileDescriptorProto :=
  { Name := some "bare.proto", Package := none, MessageType := [], EnumType := [],
    Service := [⟨some "S", []⟩] }

/-- A file of package `pkg` whose methods return a type of another package and a type
whose reference starts with the package prefix twice. -/
def foreignTypeFile : FileDescriptorProto :=
  { Name := some "foreign.proto", Package := some "pkg", MessageType := [], EnumType := [],
    Service := [⟨some "S", [⟨some "A", some ".other.T"⟩, ⟨some "B", some ".pkg..pkg.T"⟩]⟩] }

/-- A file without a package whose one method has an output type. -/
def noPackageFile : FileDescriptorProto :=
  { Name := some "nopkg.proto", Package := none, MessageType := [], EnumType := [],
    Service := [⟨some "S", [⟨some "M", some ".T"⟩]⟩] }

/-! ## Lemmas on strings and on the engine -/

theorem str_append_empty (s : String) : s ++ "" = s := by
  apply String.ext; simp

theorem str_empty_append (s : String) : "" ++ s = s := by
  apply String.ext; simp

theorem range_nil {α : Type} (body : α → String) : range [] body = "" := rfl

theorem range_cons {α : Type} (x : α) (xs : List α) (body : α → String) :
    range (x :: xs) body = body x ++ range xs body := rfl

theorem range_append {α : Type} (xs ys : List α) (body : α → String) :
    range (xs ++ ys) body = range xs body ++ range ys body := by
  induction xs with
  | nil => simp [range_nil, str_empty_append]
  | cons x xs ih => simp [range_cons, ih, String.append_assoc]

theorem range_map {α β : Type} (g : β → α) (xs : List β) (body : α → String) :
    range (xs.map g) body = range xs (fun x => body (g x)) := by
  induction xs with
  | nil => rfl
  | cons x xs ih => simp [range_cons, ih]

/-! ## The loop of `generateResponse` -/

theorem tmplExecute_no_declarations (f : FileDescriptorProto)
    (hs : f.Service = []) (he : f.EnumType = []) (hm : f.MessageType = []) :
    tmplExecute f = .ok " \n\n\n\n\n\n\n\t" := by
  simp [tmplExecute, hs, he, hm, rangeE, range]

theorem generateLoop_skip (xs ys : List FileDescriptorProto) (f : FileDescriptorProto)
    (hs : f.Service = []) (he : f.EnumType = []) (hm : f.MessageType = [])
    (acc : List CodeGeneratorResponse_File) :
    generateLoop (xs ++ f :: ys) acc = generateLoop (xs ++ ys) acc := by
  induction xs generalizing acc with
  | nil =>
    have h := tmplExecute_no_declarations f hs he hm
    have ht : TrimSpace " \n\n\n\n\n\n\n\t" = "" := by decide
    simp [generateLoop, h, ht]
  | cons x xs ih =>
    simp only [List.cons_append, generateLoop]
    cases hx : tmplExecute x with
    | error e => rfl
    | ok buf =>
      simp only []
      split
      · exact ih _
      · exact ih _

theorem trimmedText_ok (f : FileDescriptorProto) (buf : String)
    (h : tmplExecute f = .ok buf) : trimmedText f = TrimSpace buf := by
  simp [trimmedText, h]

theorem generateLoop_ok (files : List FileDescriptorProto)
    (acc : List CodeGeneratorResponse_File)
    (hall : ∀ f ∈ files, ∃ buf, tmplExecute f = .ok buf) :
    generateLoop files acc = .ok ⟨acc ++ specResponse files⟩ := by
  induction files generalizing acc with
  | nil => simp [generateLoop, specResponse]
  | cons x xs ih =>
    obtain ⟨buf, hx⟩ := hall x (List.mem_cons_self _ _)
    have hxs : ∀ f ∈ xs, ∃ buf, tmplExecute f = .ok buf :=
      fun f hf => hall f (List.mem_cons_of_mem _ hf)
    have ht := trimmedText_ok x buf hx
    by_cases hne : TrimSpace buf = ""
    · simp [generateLoop, hx, hne, ih _ hxs, specResponse, List.filter_cons, ht]
    · simp [generateLoop, hx, hne, ih _ hxs, specResponse, List.filter_cons, ht,
        proto_String]

theorem generateLoop_error (files : List FileDescriptorProto)
    (acc : List CodeGeneratorResponse_File)
    (hex : ∃ f ∈ files, ∃ e, tmplExecute f = .error e) :
    ∃ e, generateLoop files acc = .error e := by
  induction files generalizing acc with
  | nil => obtain ⟨f, hf, _⟩ := hex; cases hf
  | cons x xs ih =>
    cases hx : tmplExecute x with
    | error e => exact ⟨.executingTemplate e, by simp [generateLoop, hx]⟩
    | ok buf =>
      have hxs : ∃ f ∈ xs, ∃ e, tmplExecute f = .error e := by
        obtain ⟨f, hf, e, he⟩ := hex
        rcases List.mem_cons.mp hf with rfl | hf
        · rw [hx] at he; cases he
        · exact ⟨f, hf, e, he⟩
      simp only [generateLoop, hx]
      split
      · exact ih _ hxs
      · exact ih _ hxs

theorem generateResponse_ok_iff (req : CodeGeneratorRequest) (resp : CodeGeneratorResponse) :
    generateResponse req = .ok resp ↔
      (∀ f ∈ req.ProtoFile, ∃ buf, tmplExecute f = .ok buf) ∧
        resp = ⟨specResponse req.ProtoFile⟩ := by
  constructor
  · intro h
    have hall : ∀ f ∈ req.ProtoFile, ∃ buf, tmplExecute f = .ok buf := by
      intro f hf
      cases hx : tmplExecute f with
      | ok buf => exact ⟨buf, rfl⟩
      | error e =>
        obtain ⟨e2, he2⟩ := generateLoop_error req.ProtoFile [] ⟨f, hf, e, hx⟩
        rw [generateResponse, he2] at h
        cases h
    refine ⟨hall, ?_⟩
    have h2 := generateLoop_ok req.ProtoFile [] hall
    rw [generateResponse, h2] at h
    simpa using h.symm
  · rintro ⟨hall, rfl⟩
    simpa [generateResponse] using generateLoop_ok req.ProtoFile [] hall

theorem generateLoop_all_empty (files : List FileDescriptorProto)
    (h : ∀ g ∈ files, g.Service = [] ∧ g.EnumType = [] ∧ g.MessageType = []) :
    generateLoop files [] = .ok ⟨[]⟩ := by
  induction files with
  | nil => rfl
  | cons x xs ih =>
    obtain ⟨hs, he, hm⟩ := h x (List.mem_cons_self _ _)
    have hskip := generateLoop_skip [] xs x hs he hm []
    simp only [List.nil_append] at hskip
    rw [hskip]
    exact ih (fun g hg => h g (List.mem_cons_of_mem _ hg))

/-! ## The output name -/

theorem extScan_suffix (rev acc : List Char) : extScan rev acc <:+ rev.reverse ++ acc := by
  induction rev generalizing acc with
  | nil => simp [extScan]
  | cons c rev ih =>
    simp only [extScan]
    split
    · exact List.nil_suffix
    · split
      · simp only [List.reverse_cons, List.append_assoc, List.singleton_append]
        exact List.suffix_append _ _
      · have := ih (c :: acc)
        simpa using this

theorem extScan_eq (rev acc : List Char) :
    extScan rev acc =
      if '.' ∈ rev.takeWhile (fun c => c != '/') then
        '.' :: ((rev.takeWhile (fun c => c != '/')).takeWhile (fun c => c != '.')).reverse ++ acc
      else [] := by
  induction rev generalizing acc with
  | nil => simp [extScan]
  | cons c rev ih =>
    simp only [extScan]
    by_cases h1 : c = '/'
    · simp [h1]
    · by_cases h2 : c = '.'
      · simp [h2]
      · have h2b : ¬ ('.' = c) := fun h => h2 h.symm
        rw [ih]
        simp [h1, h2, h2b, List.takeWhile_cons]

theorem Ext_suffix (path : String) : (Ext path).data <:+ path.data := by
  have := extScan_suffix path.data.reverse []
  simpa [Ext] using this

theorem Ext_eq_specExt (path : String) : Ext path = specExt path := by
  simp only [Ext, specExt, lastElement, extScan_eq, List.mem_reverse, List.reverse_reverse,
    List.append_nil]
  split <;> rfl

theorem TrimSuffix_Ext (name : String) :
    TrimSuffix name (Ext name) ++ ".js" = specOutputName name := by
  have hs : HasSuffix name (Ext name) = true := by
    simp [HasSuffix, Ext_suffix]
  rw [TrimSuffix, if_pos hs, Ext_eq_specExt]
  rfl

theorem specOutputName_endsWith (name : String) : EndsWith (specOutputName name) ".js" := by
  simp only [EndsWith, specOutputName, String.data_append]
  exact List.suffix_append _ _

theorem mem_specResponse (files : List FileDescriptorProto) (e : CodeGeneratorResponse_File) :
    e ∈ specResponse files ↔
      ∃ f ∈ files, trimmedText f ≠ "" ∧
        e = ⟨some (specOutputName f.GetName), some (trimmedText f)⟩ := by
  simp only [specResponse, List.mem_map, List.mem_filter, TrimSuffix_Ext]
  constructor
  · rintro ⟨f, ⟨hf, hne⟩, rfl⟩
    exact ⟨f, hf, by simpa using hne, rfl⟩
  · rintro ⟨f, hf, hne, rfl⟩
    exact ⟨f, ⟨hf, by simpa using hne⟩, rfl⟩

/-! ## The claims on `generateResponse` -/

/-- C1: a file with no services, no top-level enums and no messages makes the template
emit white space only, so its trimmed text is empty and the file contributes no entry:
the response is the one of the request without that file; and a request made only of
such files yields the empty output list and no error. -/
theorem generateResponse_no_declarations (xs ys : List FileDescriptorProto)
    (f : FileDescriptorProto)
    (hs : f.Service = []) (he : f.EnumType = []) (hm : f.MessageType = []) :
    (∃ buf, tmplExecute f = .ok buf ∧ (∀ c ∈ buf.data, isSpace c = true) ∧
      TrimSpace buf = "") ∧
    generateResponse ⟨xs ++ f :: ys⟩ = generateResponse ⟨xs ++ ys⟩ ∧
    ((∀ g ∈ xs ++ ys, g.Service = [] ∧ g.EnumType = [] ∧ g.MessageType = []) →
      generateResponse ⟨xs ++ f :: ys⟩ = .ok ⟨[]⟩) := by
  refine ⟨⟨_, tmplExecute_no_declarations f hs he hm, by decide, by decide⟩, ?_, ?_⟩
  · exact generateLoop_skip xs ys f hs he hm []
  · intro hall
    apply generateLoop_all_empty
    intro g hg
    rcases List.mem_append.mp hg with hg | hg
    · exact hall g (List.mem_append_left _ hg)
    · rcases List.mem_cons.mp hg with rfl | hg
      · exact ⟨hs, he, hm⟩
      · exact hall g (List.mem_append_right _ hg)

/-- Witness of C1: between two files that declare an enum, the empty file leaves no entry,
and alone it yields the empty list. -/
theorem generateResponse_no_declarations_witness :
    generateResponse ⟨[enumFile "a.proto"] ++ emptyFile :: [enumFile "b.proto"]⟩ =
        generateResponse ⟨[enumFile "a.proto"] ++ [enumFile "b.proto"]⟩ ∧
      generateResponse ⟨[] ++ emptyFile :: []⟩ = .ok ⟨[]⟩ :=
  ⟨(generateResponse_no_declarations [enumFile "a.proto"] [enumFile "b.proto"] emptyFile
      rfl rfl rfl).2.1,
   (generateResponse_no_declarations [] [] emptyFile rfl rfl rfl).2.2 (by simp)⟩

/-- C2: on success, every file whose trimmed text is not empty has an entry named by the
input name with its extension removed and `.js` appended, the extension being the suffix
from the last `.` of the final `/`-separated element (empty without a `.`); every entry
is named so, hence ends in `.js`; and the three names of the claim derive as stated. -/
theorem generateResponse_output_name (req : CodeGeneratorRequest)
    (resp : CodeGeneratorResponse) (h : generateResponse req = .ok resp) :
    (∀ f ∈ req.ProtoFile, trimmedText f ≠ "" →
      ⟨some (specOutputName f.GetName), some (trimmedText f)⟩ ∈ resp.File) ∧
    (∀ e ∈ resp.File, ∃ f ∈ req.ProtoFile, trimmedText f ≠ "" ∧
      e.Name = some (specOutputName f.GetName) ∧
      EndsWith (specOutputName f.GetName) ".js") ∧
    (∀ name, TrimSuffix name (Ext name) ++ ".js" = specOutputName name) ∧
    TrimSuffix "a/b.v1/foo.proto" (Ext "a/b.v1/foo.proto") ++ ".js" = "a/b.v1/foo.js" ∧
    TrimSuffix "x.y.proto" (Ext "x.y.proto") ++ ".js" = "x.y.js" ∧
    TrimSuffix "dir.v1/foo" (Ext "dir.v1/foo") ++ ".js" = "dir.v1/foo.js" := by
  obtain ⟨_, rfl⟩ := (generateResponse_ok_iff req resp).mp h
  refine ⟨?_, ?_, TrimSuffix_Ext, by decide, by decide, by decide⟩
  · intro f hf hne
    exact (mem_specResponse _ _).mpr ⟨f, hf, hne, rfl⟩
  · intro e he
    obtain ⟨f, hf, hne, rfl⟩ := (mem_specResponse _ _).mp he
    exact ⟨f, hf, hne, rfl, specOutputName_endsWith _⟩

/-- Witness of C2: three files named as in the claim yield the three `.js` names. -/
theorem generateResponse_output_name_witness :
    generateResponse
        ⟨[enumFile "a/b.v1/foo.proto", enumFile "x.y.proto", enumFile "dir.v1/foo"]⟩ =
      .ok ⟨[⟨some "a/b.v1/foo.js", some "E = \x7b\n\tV: \"V\"\n\x7d"⟩,
            ⟨some "x.y.js", some "E = \x7b\n\tV: \"V\"\n\x7d"⟩,
            ⟨some "dir.v1/foo.js", some "E = \x7b\n\tV: \"V\"\n\x7d"⟩]⟩ ∧
      ⟨some (specOutputName "dir.v1/foo"), some (trimmedText (enumFile "dir.v1/foo"))⟩ ∈
        [(⟨some "a/b.v1/foo.js", some "E = \x7b\n\tV: \"V\"\n\x7d"⟩ : CodeGeneratorResponse_File),
          ⟨some "x.y.js", some "E = \x7b\n\tV: \"V\"\n\x7d"⟩,
          ⟨some "dir.v1/foo.js", some "E = \x7b\n\tV: \"V\"\n\x7d"⟩] :=
  ⟨by decide,
   (generateResponse_output_name
      ⟨[enumFile "a/b.v1/foo.proto", enumFile "x.y.proto", enumFile "dir.v1/foo"]⟩ _
      (by decide)).1 (enumFile "dir.v1/foo") (by simp) (by decide)⟩

/-- C3: generation succeeds exactly when the template succeeds on every file, and then
the output list is the input list filtered by non-emptiness of the trimmed text and
mapped to (derived name, trimmed text), in input order; entries of equal name are both
kept, so non-empty inputs named `a.proto` and `a.txt` yield two entries named `a.js`. -/
theorem generateResponse_filter_map :
    (∀ req resp, generateResponse req = .ok resp →
      resp.File = (req.ProtoFile.filter (fun f => trimmedText f ≠ "")).map (fun f =>
        { Name := some (TrimSuffix f.GetName (Ext f.GetName) ++ ".js"),
          Content := some (trimmedText f) })) ∧
    (∀ req, (∀ f ∈ req.ProtoFile, ∃ buf, tmplExecute f = .ok buf) →
      generateResponse req = .ok ⟨specResponse req.ProtoFile⟩) ∧
    (∀ (f g : FileDescriptorProto) (tf tg : String),
      f.Name = some "a.proto" → g.Name = some "a.txt" →
      tmplExecute f = .ok tf → tmplExecute g = .ok tg →
      TrimSpace tf ≠ "" → TrimSpace tg ≠ "" →
      generateResponse ⟨[f, g]⟩ =
        .ok ⟨[⟨some "a.js", some (TrimSpace tf)⟩, ⟨some "a.js", some (TrimSpace tg)⟩]⟩) := by
  refine ⟨?_, ?_, ?_⟩
  · intro req resp h
    obtain ⟨_, rfl⟩ := (generateResponse_ok_iff req resp).mp h
    rfl
  · intro req hall
    exact (generateResponse_ok_iff req _).mpr ⟨hall, rfl⟩
  · intro f g tf tg hf hg htf htg hnf hng
    have e1 : TrimSuffix "a.proto" (Ext "a.proto") ++ ".js" = "a.js" := by decide
    have e2 : TrimSuffix "a.txt" (Ext "a.txt") ++ ".js" = "a.js" := by decide
    simp [generateResponse, generateLoop, htf, htg, hnf, hng, FileDescriptorProto.GetName,
      hf, hg, e1, e2, proto_String]

/-- Witness of C3: two enum files named `a.proto` and `a.txt` give two entries `a.js`. -/
theorem generateResponse_filter_map_witness :
    generateResponse ⟨[enumFile "a.proto", enumFile "a.txt"]⟩ =
      .ok ⟨[⟨some "a.js", some (TrimSpace " \n\n\n\n\n\nE = \x7b\n\tV: \"V\"\n\x7d\n\n\n\n\n\t")⟩,
            ⟨some "a.js", some (TrimSpace " \n\n\n\n\n\nE = \x7b\n\tV: \"V\"\n\x7d\n\n\n\n\n\t")⟩]⟩ :=
  generateResponse_filter_map.2.2 (enumFile "a.proto") (enumFile "a.txt") _ _ rfl rfl
    (by decide) (by decide) (by decide) (by decide)

theorem foldl_append_eq {α : Type} (xs : List α) (body : α → String) (acc : String) :
    List.foldl (fun r s => r ++ s) acc (xs.map body) = acc ++ range xs body := by
  induction xs generalizing acc with
  | nil => simp [range_nil, str_append_empty]
  | cons x xs ih => simp [range_cons, ih, String.append_assoc]

theorem range_eq_join {α : Type} (xs : List α) (body : α → String) :
    range xs body = String.join (xs.map body) := by
  rw [String.join, foldl_append_eq, str_empty_append]

theorem trimRightSpace_newline : trimRightSpace "\n" = "" := by decide

theorem rangeIdx_entries (vs : List String) (v : String) (i n : Int) (indent : String)
    (hn : n = i + vs.length + 1) :
    rangeIdx ((vs ++ [v]).map (fun s => (⟨some s⟩ : EnumValueDescriptorProto))) i (fun j w =>
      "\n" ++ indent ++ "\t" ++ printPtr w.Name ++ ": \"" ++ printPtr w.Name ++ "\"" ++
      (if Subtract n 1 ≠ j then "," else "") ++ trimRightSpace "\n") =
    range vs (fun s => "\n" ++ indent ++ "\t" ++ s ++ ": \"" ++ s ++ "\",") ++
      ("\n" ++ indent ++ "\t" ++ v ++ ": \"" ++ v ++ "\"") := by
  induction vs generalizing i with
  | nil =>
    have h : Subtract n 1 = i := by simp [Subtract, hn]
    simp [rangeIdx, range, printPtr, h, trimRightSpace_newline, str_append_empty,
      str_empty_append]
  | cons s vs ih =>
    have h : Subtract n 1 ≠ i := by
      simp only [Subtract, hn, List.length_cons]; push_cast; omega
    have h2 := ih (i + 1) (by simp only [hn, List.length_cons]; push_cast; omega)
    rw [List.cons_append, List.map_cons, rangeIdx, h2, range_cons]
    apply String.ext
    simp [printPtr, h, trimRightSpace_newline]

theorem intercalate_go_eq (sep acc : String) (xs : List String) :
    String.intercalate.go acc sep xs = acc ++ range xs (fun x => sep ++ x) := by
  induction xs generalizing acc with
  | nil => simp [String.intercalate.go, range_nil, str_append_empty]
  | cons x xs ih => simp [String.intercalate.go, ih, range_cons, String.append_assoc]

theorem intercalate_cons (sep a : String) (xs : List String) :
    String.intercalate sep (a :: xs) = a ++ range xs (fun x => sep ++ x) := by
  simp [String.intercalate, intercalate_go_eq]

theorem range_congr {α : Type} (xs : List α) (f g : α → String) (h : ∀ x, f x = g x) :
    range xs f = range xs g := by
  have : f = g := funext h
  rw [this]

theorem range_data {α : Type} (xs : List α) (body : α → String) :
    (range xs body).data = (xs.map (fun x => (body x).data)).flatten := by
  induction xs with
  | nil => rfl
  | cons x xs ih => simp [range_cons, ih]

/-! ## The claims on the emitted text -/

/-- C7: for an enum named `E` with values `v0..vk`, the text `DefineEnum` emits is, line by
line: an empty line, the line `E = {`, one entry line per value in declaration order, each
but the last ending in a comma and the last without one, the closing `}` and an empty
line; every line of the block starts with the indent, every entry with one more tab. -/
theorem DefineEnum_shape (indent E : String) (vs : List String) (v : String) :
    DefineEnum ⟨⟨some E, (vs ++ [v]).map (fun s => ⟨some s⟩)⟩, indent⟩ =
      String.intercalate "\n" (
        ["", indent ++ E ++ " = \x7b"] ++
        vs.map (fun s => indent ++ "\t" ++ s ++ ": \"" ++ s ++ "\",") ++
        [indent ++ "\t" ++ v ++ ": \"" ++ v ++ "\"", indent ++ "\x7d", ""]) := by
  have ht : trimRightSpace " = \x7b\n" = " = \x7b" := by decide
  have hr := rangeIdx_entries vs v 0
    (((vs ++ [v]).map (fun s => (⟨some s⟩ : EnumValueDescriptorProto))).length : Int) indent
    (by simp)
  unfold DefineEnum
  dsimp only
  rw [hr, ht]
  simp only [List.cons_append, List.nil_append, intercalate_cons, range_cons, range_append,
    range_map, range_nil]
  apply String.ext
  simp [printPtr, range_data]


theorem range_flatten {α : Type} (xss : List (List α)) (body : α → String) :
    range xss.flatten body = range xss (fun xs => range xs body) := by
  induction xss with
  | nil => rfl
  | cons xs xss ih => simp [List.flatten, range_append, range_cons, ih]

theorem range_shift {α : Type} (xs : List α) (g : α → String) (s : String) :
    s ++ range xs (fun x => g x ++ s) = range xs (fun x => s ++ g x) ++ s := by
  induction xs with
  | nil => simp [range_nil, str_append_empty, str_empty_append]
  | cons x xs ih =>
    rw [range_cons, range_cons, String.append_assoc, String.append_assoc, ← ih,
      String.append_assoc]

theorem range_shift_mid {α : Type} (xs : List α) (g : α → String) (s t : String) :
    s ++ (range xs (fun x => g x ++ s) ++ t) = range xs (fun x => s ++ g x) ++ (s ++ t) := by
  rw [← String.append_assoc, range_shift, String.append_assoc]

theorem range_shift_head {α : Type} (xs : List α) (g : α → String) (h s t : String) :
    h ++ s ++ range xs (fun x => g x ++ s) ++ t =
      h ++ (range xs (fun x => s ++ g x) ++ (s ++ t)) := by
  rw [String.append_assoc, String.append_assoc, range_shift_mid]

theorem trim_constructor :
    trimRightSpace "\n\tconstructor(o) \x7b\n\t\t" = "\n\tconstructor(o) \x7b" := by decide

theorem trim_indent_right : trimRightSpace "\n\t\t" = "" := by decide

theorem trim_indent_left : trimLeftSpace "\n\t\t" = "" := by decide

theorem trim_check :
    trimRightSpace " is both undefined and not optional'\n\t\t\x7d\n\t\t" =
      " is both undefined and not optional'\n\t\t\x7d" := by decide

theorem tmplToJSON_lines (C : Option String) (fs : List (String × Option Bool))
    (enums : List EnumDescriptorProto) :
    tmplToJSON ⟨C, fs.map (fun p => ⟨some p.1, p.2⟩), enums⟩ =
      String.intercalate "\n" (
        ["", "\ttoJSON() \x7b", "\t\tobj := new Object()"] ++
        (fs.map (fun p =>
          ["\t\t"] ++
          (if p.2 = none then
            ["\t\tif this._" ++ p.1 ++ " === undefined \x7b",
             "\t\t\tthrow 'Field " ++ p.1 ++ " is both undefined and not optional'",
             "\t\t\x7d"]
          else []) ++
          ["\t\tobj." ++ p.1 ++ " = this._" ++ p.1])).flatten ++
        ["\t\t", "\t\treturn obj", "\t\x7d", "\x7d", ""]) := by
  have hsplit : "\n\ttoJSON() \x7b\n\t\tobj := new Object()\n\t\t" =
      "\n\ttoJSON() \x7b\n\t\tobj := new Object()" ++ "\n\t\t" := by decide
  unfold tmplToJSON
  dsimp only
  rw [range_map, trim_indent_left, trim_check, hsplit, range_shift_head]
  simp only [List.cons_append, List.nil_append, intercalate_cons, range_cons, range_append,
    range_flatten, range_map, range_nil]
  apply String.ext
  simp [range_data, printPtr]
  congr 1
  apply List.map_congr_left
  rintro ⟨n, o⟩ _
  cases o <;> simp [truthPtr]

theorem toJSON_lines_filter (fs : List (String × Option Bool)) :
    ((fs.map (fun p =>
          ["\t\t"] ++
          (if p.2 = none then
            ["\t\tif this._" ++ p.1 ++ " === undefined \x7b",
             "\t\t\tthrow 'Field " ++ p.1 ++ " is both undefined and not optional'",
             "\t\t\x7d"]
          else []) ++
          ["\t\tobj." ++ p.1 ++ " = this._" ++ p.1])).flatten).filter
        (fun l => HasPrefix l "\t\tobj.") =
      fs.map (fun p => "\t\tobj." ++ p.1 ++ " = this._" ++ p.1) := by
  induction fs with
  | nil => rfl
  | cons p fs ih =>
    obtain ⟨n, o⟩ := p
    rw [List.map_cons, List.flatten_cons, List.filter_append, ih]
    cases o <;> simp [HasPrefix, List.filter_cons]

theorem contains_mid (pre x post : String) : Contains (pre ++ x ++ post) x := by
  refine ⟨pre.data, post.data, ?_⟩
  simp

theorem contains_trans (s t u : String) (h1 : Contains s t) (h2 : Contains t u) :
    Contains s u := List.IsInfix.trans h2 h1

theorem range_contains {α : Type} (xs : List α) (x : α) (body : α → String) (h : x ∈ xs) :
    Contains (range xs body) (body x) := by
  obtain ⟨a, b, rfl⟩ := List.append_of_mem h
  rw [range_append, range_cons, ← String.append_assoc]
  exact contains_mid _ _ _

theorem tmplExecute_contains_message (file : FileDescriptorProto) (out : String)
    (msg : DescriptorProto) (hm : msg ∈ file.MessageType) (h : tmplExecute file = .ok out) :
    Contains out (tmplMessage msg) := by
  unfold tmplExecute at h
  split at h
  · cases h
  · cases h
    exact contains_trans _ _ _ (contains_mid _ _ _) (range_contains _ _ _ hm)

theorem tmplMessage_endsWith_toJSON (msg : DescriptorProto) :
    EndsWith (tmplMessage msg) (tmplToJSON msg) := by
  simp only [EndsWith, tmplMessage, String.data_append]
  exact List.suffix_append _ _

theorem splitLines_append_newline (a b : List Char) (h : '\n' ∉ a) :
    splitLines (a ++ '\n' :: b) = a :: splitLines b := by
  induction a with
  | nil => simp [splitLines]
  | cons c a ih =>
    have hc : c ≠ '\n' := fun hc => h (by simp [hc])
    have ha : '\n' ∉ a := fun ha => h (List.mem_cons_of_mem _ ha)
    simp [splitLines, hc, ih ha]

theorem splitLines_no_newline (a : List Char) (h : '\n' ∉ a) : splitLines a = [a] := by
  induction a with
  | nil => rfl
  | cons c a ih =>
    have hc : c ≠ '\n' := fun hc => h (by simp [hc])
    have ha : '\n' ∉ a := fun ha => h (List.mem_cons_of_mem _ ha)
    simp [splitLines, hc, ih ha]

theorem splitLines_intercalate (l : String) (ls : List String)
    (h : ∀ x ∈ l :: ls, '\n' ∉ x.data) :
    splitLines (String.intercalate "\n" (l :: ls)).data = (l :: ls).map String.data := by
  rw [intercalate_cons]
  induction ls generalizing l with
  | nil =>
    simp only [range_nil, str_append_empty, List.map_cons, List.map_nil]
    exact splitLines_no_newline _ (h l (List.mem_cons_self _ _))
  | cons x xs ih =>
    have hl := h l (List.mem_cons_self _ _)
    have hxs : ∀ y ∈ x :: xs, '\n' ∉ y.data :=
      fun y hy => h y (List.mem_cons_of_mem _ hy)
    have := ih x hxs
    rw [range_cons]
    simp only [String.data_append, List.map_cons] at this ⊢
    rw [List.singleton_append, List.cons_append, splitLines_append_newline _ _ hl, this]

theorem toJSON_lines_no_newline (fs : List (String × Option Bool))
    (h : ∀ p ∈ fs, '\n' ∉ p.1.data) :
    ∀ x ∈ ["", "\ttoJSON() \x7b", "\t\tobj := new Object()"] ++
        (fs.map (fun p =>
          ["\t\t"] ++
          (if p.2 = none then
            ["\t\tif this._" ++ p.1 ++ " === undefined \x7b",
             "\t\t\tthrow 'Field " ++ p.1 ++ " is both undefined and not optional'",
             "\t\t\x7d"]
          else []) ++
          ["\t\tobj." ++ p.1 ++ " = this._" ++ p.1])).flatten ++
        ["\t\t", "\t\treturn obj", "\t\x7d", "\x7d", ""], '\n' ∉ x.data := by
  intro x hx
  simp only [List.mem_append, List.mem_flatten, List.mem_map] at hx
  rcases hx with (hx | ⟨l, ⟨p, hp, rfl⟩, hx⟩) | hx
  · simp at hx
    rcases hx with rfl | rfl | rfl <;> decide
  · have hn := h p hp
    obtain ⟨n, o⟩ := p
    cases o <;> simp at hx
    · rcases hx with rfl | rfl | rfl | rfl | rfl <;> simp_all
    · rcases hx with rfl | rfl <;> simp_all
  · simp at hx
    rcases hx with rfl | rfl | rfl | rfl | rfl <;> decide

theorem toJSON_split_filter (C : Option String) (fs : List (String × Option Bool))
    (enums : List EnumDescriptorProto) (h : ∀ p ∈ fs, '\n' ∉ p.1.data) :
    (splitLines (tmplToJSON ⟨C, fs.map (fun p => ⟨some p.1, p.2⟩), enums⟩).data).filter
        (fun l => "\t\tobj.".data.isPrefixOf l) =
      fs.map (fun p => ("\t\tobj." ++ p.1 ++ " = this._" ++ p.1).data) := by
  have hno := toJSON_lines_no_newline fs h
  rw [tmplToJSON_lines]
  simp only [List.cons_append, List.nil_append] at hno ⊢
  rw [splitLines_intercalate _ _ hno]
  have hf := toJSON_lines_filter fs
  have hfull : (["", "\ttoJSON() \x7b", "\t\tobj := new Object()"] ++
        (fs.map (fun p =>
          ["\t\t"] ++
          (if p.2 = none then
            ["\t\tif this._" ++ p.1 ++ " === undefined \x7b",
             "\t\t\tthrow 'Field " ++ p.1 ++ " is both undefined and not optional'",
             "\t\t\x7d"]
          else []) ++
          ["\t\tobj." ++ p.1 ++ " = this._" ++ p.1])).flatten ++
        ["\t\t", "\t\treturn obj", "\t\x7d", "\x7d", ""]).filter
          (fun l => HasPrefix l "\t\tobj.") =
      fs.map (fun p => "\t\tobj." ++ p.1 ++ " = this._" ++ p.1) := by
    rw [List.filter_append, List.filter_append, hf]
    simp [HasPrefix, List.filter_cons]
  simp only [List.cons_append, List.nil_append] at hfull
  have hrhs : fs.map (fun p => ("\t\tobj." ++ p.1 ++ " = this._" ++ p.1).data) =
      (fs.map (fun p => "\t\tobj." ++ p.1 ++ " = this._" ++ p.1)).map String.data := by
    rw [List.map_map]
    rfl
  rw [hrhs, ← hfull, List.filter_map]
  rfl

/-- C8: the `toJSON` method of a message with the fields `f1..fN` is, line by line, its
two opening lines, then for each field in declaration order an indent-only line, the lines
of its definedness check if it has one, and its copy statement `obj.n = this._n`, then
the closing lines; the lines that start a copy statement are exactly the `N` copies of
the declared fields, in order, whatever the optional flags, and when no JSON name holds a
newline these are the lines of the text itself; the class text ends with this method, and
the text of a file holds the class of each of its messages. -/
theorem toJSON_copy_statements (C : String) (fs : List (String × Option Bool))
    (enums : List EnumDescriptorProto) :
    (∃ lines : List String,
      lines =
        ["", "\ttoJSON() \x7b", "\t\tobj := new Object()"] ++
        (fs.map (fun p =>
          ["\t\t"] ++
          (if p.2 = none then
            ["\t\tif this._" ++ p.1 ++ " === undefined \x7b",
             "\t\t\tthrow 'Field " ++ p.1 ++ " is both undefined and not optional'",
             "\t\t\x7d"]
          else []) ++
          ["\t\tobj." ++ p.1 ++ " = this._" ++ p.1])).flatten ++
        ["\t\t", "\t\treturn obj", "\t\x7d", "\x7d", ""] ∧
      tmplToJSON ⟨some C, fs.map (fun p => ⟨some p.1, p.2⟩), enums⟩ =
        String.intercalate "\n" lines ∧
      lines.filter (fun l => HasPrefix l "\t\tobj.") =
        fs.map (fun p => "\t\tobj." ++ p.1 ++ " = this._" ++ p.1)) ∧
    ((∀ p ∈ fs, '\n' ∉ p.1.data) →
      (splitLines
          (tmplToJSON ⟨some C, fs.map (fun p => ⟨some p.1, p.2⟩), enums⟩).data).filter
          (fun l => "\t\tobj.".data.isPrefixOf l) =
        fs.map (fun p => ("\t\tobj." ++ p.1 ++ " = this._" ++ p.1).data)) ∧
    EndsWith (tmplMessage ⟨some C, fs.map (fun p => ⟨some p.1, p.2⟩), enums⟩)
      (tmplToJSON ⟨some C, fs.map (fun p => ⟨some p.1, p.2⟩), enums⟩) ∧
    (∀ (file : FileDescriptorProto) (out : String),
      (⟨some C, fs.map (fun p => ⟨some p.1, p.2⟩), enums⟩ : DescriptorProto) ∈
        file.MessageType →
      tmplExecute file = .ok out →
      Contains out (tmplMessage ⟨some C, fs.map (fun p => ⟨some p.1, p.2⟩), enums⟩)) := by
  refine ⟨⟨_, rfl, tmplToJSON_lines _ _ _, ?_⟩, toJSON_split_filter _ fs enums,
    tmplMessage_endsWith_toJSON _, ?_⟩
  · rw [List.filter_append, List.filter_append, toJSON_lines_filter]
    simp [HasPrefix, List.filter_cons]
  · intro file out hm h
    exact tmplExecute_contains_message file out _ hm h

/-- Witness of C8: the lines of `toJSON` of the message `Point` that start a copy are
the copies of `x` and `y`, and the text of the scenario file holds the class `Point`. -/
theorem toJSON_copy_statements_witness :
    (splitLines
        (tmplToJSON ⟨some "Point",
          [("x", none), ("y", some true)].map (fun p => ⟨some p.1, p.2⟩), []⟩).data).filter
        (fun l => "\t\tobj.".data.isPrefixOf l) =
      ["\t\tobj.x = this._x".data, "\t\tobj.y = this._y".data] ∧
    Contains (emittedText demoFile)
      (tmplMessage
        ⟨some "Point", [("x", none), ("y", some true)].map (fun p => ⟨some p.1, p.2⟩), []⟩) :=
  ⟨(toJSON_copy_statements "Point" [("x", none), ("y", some true)] []).2.1 (by decide),
   (toJSON_copy_statements "Point" [("x", none), ("y", some true)] []).2.2.2 demoFile _
     (by decide) rfl⟩

theorem tmplConstructor_lines (C : Option String) (fs : List (String × Option Bool))
    (enums : List EnumDescriptorProto) :
    tmplConstructor ⟨C, fs.map (fun p => ⟨some p.1, p.2⟩), enums⟩ =
      String.intercalate "\n" (
        ["", "\tconstructor(o) \x7b"] ++
        fs.map (fun p => "\t\t\tthis._" ++ p.1 ++ " = o." ++ p.1) ++
        ["\t\x7d", "", "\t"]) := by
  unfold tmplConstructor
  dsimp only
  rw [range_map, trim_constructor, trim_indent_right]
  simp only [List.cons_append, List.nil_append, intercalate_cons, range_cons, range_append,
    range_map, range_nil]
  apply String.ext
  simp [range_data, printPtr]

theorem tmplAccessors_lines (C : Option String) (fs : List (String × Option Bool))
    (enums : List EnumDescriptorProto) :
    tmplAccessors ⟨C, fs.map (fun p => ⟨some p.1, p.2⟩), enums⟩ =
      String.join (fs.map (fun p => String.intercalate "\n"
        ["", "\tget " ++ p.1 ++ "() \x7b", "\t\treturn this._" ++ p.1 ++ " ", "\t\x7d", "",
         "\tset " ++ p.1 ++ "(" ++ p.1 ++ ") \x7b", "\t\tthis._" ++ p.1 ++ " = " ++ p.1,
         "\t\x7d", "\t"])) := by
  unfold tmplAccessors
  dsimp only
  rw [range_map, ← range_eq_join]
  apply range_congr
  intro p
  simp only [intercalate_cons, range_cons, range_nil]
  apply String.ext
  simp [printPtr]

/-- C9: the class of a message named `C` opens with `class C {` and its nested enums,
then holds the constructor `constructor(o)` with one line `this._n = o.n` per field, then
for each field the getter `get n()` returning `this._n` and the setter `set n(n)` assigning
`this._n = n`, each once per field and in declaration order, then the method `toJSON`; the
backing property is the JSON name with one underscore before it; and the text of a file
holds the class of each of its messages. -/
theorem message_class_shape (C : String) (fs : List (String × Option Bool))
    (enums : List EnumDescriptorProto) :
    tmplMessage ⟨some C, fs.map (fun p => ⟨some p.1, p.2⟩), enums⟩ =
      "\nclass " ++ C ++ " \x7b\n\t" ++
      String.join (enums.map (fun e => "\n\t" ++ DefineEnum ⟨e, "\t"⟩ ++ "\n\t")) ++
      String.intercalate "\n" (
        ["", "\tconstructor(o) \x7b"] ++
        fs.map (fun p => "\t\t\tthis._" ++ p.1 ++ " = o." ++ p.1) ++
        ["\t\x7d", "", "\t"]) ++
      String.join (fs.map (fun p => String.intercalate "\n"
        ["", "\tget " ++ p.1 ++ "() \x7b", "\t\treturn this._" ++ p.1 ++ " ", "\t\x7d", "",
         "\tset " ++ p.1 ++ "(" ++ p.1 ++ ") \x7b", "\t\tthis._" ++ p.1 ++ " = " ++ p.1,
         "\t\x7d", "\t"])) ++
      tmplToJSON ⟨some C, fs.map (fun p => ⟨some p.1, p.2⟩), enums⟩ ∧
    (∀ (file : FileDescriptorProto) (out : String),
      (⟨some C, fs.map (fun p => ⟨some p.1, p.2⟩), enums⟩ : DescriptorProto) ∈
        file.MessageType →
      tmplExecute file = .ok out →
      Contains out (tmplMessage ⟨some C, fs.map (fun p => ⟨some p.1, p.2⟩), enums⟩)) := by
  refine ⟨?_, fun file out hm h => tmplExecute_contains_message file out _ hm h⟩
  rw [← tmplConstructor_lines (some C) fs enums, ← tmplAccessors_lines (some C) fs enums,
    ← range_eq_join]
  rfl

/-- Witness of C9: the class `Point` of the scenario file, and its place in the text. -/
theorem message_class_shape_witness :
    (⟨some "Point", [("x", none), ("y", some true)].map (fun p => ⟨some p.1, p.2⟩), []⟩ :
        DescriptorProto) ∈ demoFile.MessageType ∧
      tmplExecute demoFile = .ok (emittedText demoFile) ∧
      Contains (emittedText demoFile)
        (tmplMessage
          ⟨some "Point", [("x", none), ("y", some true)].map (fun p => ⟨some p.1, p.2⟩), []⟩) :=
  ⟨by decide, rfl,
   (message_class_shape "Point" [("x", none), ("y", some true)] []).2 demoFile _
     (by decide) rfl⟩

set_option maxRecDepth 100000 in
/-- C4, evaluated: for a message with the fields `a` (flag unset), `b` (flag explicitly
false) and `c` (flag true), `toJSON` holds the definedness check of `a` only: the field
`b`, which is not optional, is copied without a check, as `c` is. -/
theorem toJSON_explicit_false_unchecked :
    tmplToJSON ⟨some "M", [⟨some "a", none⟩, ⟨some "b", some false⟩, ⟨some "c", some true⟩],
        []⟩ =
      String.intercalate "\n"
        ["", "\ttoJSON() \x7b", "\t\tobj := new Object()",
         "\t\t",
         "\t\tif this._a === undefined \x7b",
         "\t\t\tthrow 'Field a is both undefined and not optional'",
         "\t\t\x7d",
         "\t\tobj.a = this._a",
         "\t\t",
         "\t\tobj.b = this._b",
         "\t\t",
         "\t\tobj.c = this._c",
         "\t\t", "\t\treturn obj", "\t\x7d", "\x7d", ""] ∧
    ¬ Contains
      (tmplToJSON ⟨some "M", [⟨some "a", none⟩, ⟨some "b", some false⟩, ⟨some "c", some true⟩],
        []⟩)
      "if this._b === undefined" := by
  refine ⟨rfl, ?_⟩
  decide

/-! ## Service clients -/

theorem TrimPrefix_append (p t : String) : TrimPrefix (p ++ t) p = t := by
  have h : HasPrefix (p ++ t) p = true := by
    simp [HasPrefix]
  rw [TrimPrefix, if_pos h]
  apply String.ext
  simp

theorem resolveOutputType_own_package (file : FileDescriptorProto)
    (m : MethodDescriptorProto) (pkg T : String) (hp : file.Package = some pkg)
    (ho : m.OutputType = some ("." ++ pkg ++ "." ++ T)) :
    resolveOutputType file m = .ok T := by
  simp only [resolveOutputType, hp, ho, DerefString, derefArg, printfDots]
  rw [TrimPrefix_append]

set_option maxRecDepth 100000 in
theorem tmplMethod_lines (file : FileDescriptorProto) (svc : ServiceDescriptorProto)
    (m : MethodDescriptorProto) (typeName : String)
    (h : resolveOutputType file m = .ok typeName) :
    tmplMethod file svc m = .ok (String.intercalate "\n"
      ["", "\t" ++ printPtr m.Name ++ "(req, options) \x7b",
       "\t\treturn fetch(this.server+\"/" ++ printPtr file.Package ++ "." ++
         printPtr svc.Name ++ "/" ++ printPtr m.Name ++ "\", \x7b",
       "\t\t\tmethod: 'POST',",
       "    \t\tbody: JSON.stringify(req),",
       "    \t\theaders: \x7b",
       "        \t\t'Content-Type': 'application/json',",
       "\t\t\t\t...options.headers,",
       "\t\t\t\t...this.options.headers",
       "\t\t\t\x7d",
       "    \t\x7d).then((response) => \x7b",
       "\t\t\treturn new " ++ typeName ++ "(JSON.parse(response.text))",
       "\t\t\x7d)",
       "\t\x7d",
       "\t"]) := by
  simp only [tmplMethod, h, intercalate_cons, range_cons, range_nil]
  congr 1
  apply String.ext
  simp

theorem tmplMethod_ok_resolves (file : FileDescriptorProto) (svc : ServiceDescriptorProto)
    (m : MethodDescriptorProto) (text : String) (h : tmplMethod file svc m = .ok text) :
    ∃ typeName, resolveOutputType file m = .ok typeName := by
  unfold tmplMethod at h
  split at h
  · cases h
  · exact ⟨_, by assumption⟩

theorem rangeE_split {α : Type} (xs : List α) (x : α) (body : α → Except ExecError String)
    (out : String) (hx : x ∈ xs) (h : rangeE xs body = .ok out) :
    ∃ xs1 xs2 a b c, xs = xs1 ++ x :: xs2 ∧ rangeE xs1 body = .ok a ∧ body x = .ok b ∧
      rangeE xs2 body = .ok c ∧ out = a ++ b ++ c := by
  induction xs generalizing out with
  | nil => cases hx
  | cons y ys ih =>
    simp only [rangeE] at h
    cases hy : body y with
    | error e => rw [hy] at h; cases h
    | ok s =>
      cases hys : rangeE ys body with
      | error e => rw [hy, hys] at h; cases h
      | ok t =>
        rw [hy, hys] at h
        cases h
        rcases List.mem_cons.mp hx with rfl | hx
        · exact ⟨[], ys, "", s, t, rfl, rfl, hy, hys, by rw [str_empty_append]⟩
        · obtain ⟨xs1, xs2, a, b, c, hsplit, ha, hb, hc, rfl⟩ := ih t hx hys
          refine ⟨y :: xs1, xs2, s ++ a, b, c, by rw [hsplit]; rfl, ?_, hb, hc, ?_⟩
          · simp only [rangeE, hy, ha]
          · simp only [String.append_assoc]

theorem rangeE_error_of_mem {α : Type} (xs : List α) (x : α)
    (body : α → Except ExecError String) (hx : x ∈ xs) (e : ExecError)
    (h : body x = .error e) : ∃ e2, rangeE xs body = .error e2 := by
  cases hr : rangeE xs body with
  | error e2 => exact ⟨e2, rfl⟩
  | ok out =>
    obtain ⟨_, _, _, b, _, _, _, hb, _, _⟩ := rangeE_split xs x body out hx hr
    rw [h] at hb
    cases hb

set_option maxRecDepth 100000 in
theorem tmplExecute_service (file : FileDescriptorProto) (svc : ServiceDescriptorProto)
    (out : String) (hs : svc ∈ file.Service) (h : tmplExecute file = .ok out) :
    ∃ classText, tmplService file svc = .ok classText ∧ Contains out classText := by
  unfold tmplExecute at h
  split at h
  · cases h
  · rename_i services hserv
    cases h
    obtain ⟨_, _, a, b, c, _, _, hb, _, rfl⟩ :=
      rangeE_split file.Service svc (tmplService file) services hs hserv
    refine ⟨b, hb, ?_⟩
    refine ⟨(" \n" ++ "\n" ++ a).data, (c ++ "\n\n" ++
      range file.EnumType (fun e => "\n" ++ DefineEnum ⟨e, ""⟩ ++ "\n") ++ "\n\n" ++
      range file.MessageType tmplMessage ++ "\n\t").data, ?_⟩
    simp

set_option maxRecDepth 100000 in
theorem tmplService_method (file : FileDescriptorProto) (svc : ServiceDescriptorProto)
    (m : MethodDescriptorProto) (classText : String) (hm : m ∈ svc.Method)
    (h : tmplService file svc = .ok classText) :
    ∃ ms1 ms2 before methodText after,
      svc.Method = ms1 ++ m :: ms2 ∧
      rangeE ms1 (tmplMethod file svc) = .ok before ∧
      tmplMethod file svc m = .ok methodText ∧
      rangeE ms2 (tmplMethod file svc) = .ok after ∧
      classText = String.intercalate "\n"
        ["", "", "class " ++ printPtr svc.Name ++ "Client \x7b",
         "\tconstructor(server, options) \x7b",
         "\t\tthis.server = server",
         "\t\tthis.options = options",
         "\t\x7d",
         "",
         "\t"] ++ before ++ methodText ++ after ++ "\n\x7d\n" := by
  unfold tmplService at h
  split at h
  · cases h
  · rename_i methods hmeth
    cases h
    obtain ⟨ms1, ms2, a, b, c, hsplit, ha, hb, hc, rfl⟩ :=
      rangeE_split svc.Method m (tmplMethod file svc) methods hm hmeth
    refine ⟨ms1, ms2, a, b, c, hsplit, ha, hb, hc, ?_⟩
    simp only [intercalate_cons, range_cons, range_nil]
    apply String.ext
    simp

/-- C5: in a file of package `pkg`, a method whose output type is `.pkg.T` (`T` any string,
dots included) resolves to the constructor name `T` exactly, and its text is the method
whose response wrapper line is `return new T(JSON.parse(response.text))`. -/
theorem method_response_wrapper (file : FileDescriptorProto) (svc : ServiceDescriptorProto)
    (m : MethodDescriptorProto) (pkg T : String) (hp : file.Package = some pkg)
    (ho : m.OutputType = some ("." ++ pkg ++ "." ++ T)) :
    resolveOutputType file m = .ok T ∧
    tmplMethod file svc m = .ok (String.intercalate "\n"
      ["", "\t" ++ printPtr m.Name ++ "(req, options) \x7b",
       "\t\treturn fetch(this.server+\"/" ++ pkg ++ "." ++
         printPtr svc.Name ++ "/" ++ printPtr m.Name ++ "\", \x7b",
       "\t\t\tmethod: 'POST',",
       "    \t\tbody: JSON.stringify(req),",
       "    \t\theaders: \x7b",
       "        \t\t'Content-Type': 'application/json',",
       "\t\t\t\t...options.headers,",
       "\t\t\t\t...this.options.headers",
       "\t\t\t\x7d",
       "    \t\x7d).then((response) => \x7b",
       "\t\t\treturn new " ++ T ++ "(JSON.parse(response.text))",
       "\t\t\x7d)",
       "\t\x7d",
       "\t"]) := by
  have hr := resolveOutputType_own_package file m pkg T hp ho
  refine ⟨hr, ?_⟩
  rw [tmplMethod_lines file svc m T hr, hp]
  rfl

/-- Witness of C5: the nested type `.demo.Outer.Inner` in package `demo` resolves to
`Outer.Inner`. -/
theorem method_response_wrapper_witness :
    resolveOutputType demoFile ⟨some "Get", some ("." ++ "demo" ++ "." ++ "Outer.Inner")⟩ =
      .ok "Outer.Inner" :=
  (method_response_wrapper demoFile ⟨some "Locator", []⟩
    ⟨some "Get", some ("." ++ "demo" ++ "." ++ "Outer.Inner")⟩ "demo" "Outer.Inner" rfl rfl).1

/-- C6: in a file of package `P`, for a service named `S` and a method named `M` of it,
the emitted text holds the class `SClient` of that service, made of its constructor and
the texts of its methods in order, the one of `M` being the method `M(req, options)` that
calls `fetch(this.server+"/P.S/M", ...)`. -/
theorem client_method_url (file : FileDescriptorProto) (svc : ServiceDescriptorProto)
    (m : MethodDescriptorProto) (P S M out : String)
    (hP : file.Package = some P) (hs : svc ∈ file.Service) (hS : svc.Name = some S)
    (hm : m ∈ svc.Method) (hM : m.Name = some M) (h : tmplExecute file = .ok out) :
    ∃ (typeName methodText classText before after : String)
      (ms1 ms2 : List MethodDescriptorProto),
      resolveOutputType file m = .ok typeName ∧
      methodText = String.intercalate "\n"
        ["", "\t" ++ M ++ "(req, options) \x7b",
         "\t\treturn fetch(this.server+\"/" ++ P ++ "." ++ S ++ "/" ++ M ++ "\", \x7b",
         "\t\t\tmethod: 'POST',",
         "    \t\tbody: JSON.stringify(req),",
         "    \t\theaders: \x7b",
         "        \t\t'Content-Type': 'application/json',",
         "\t\t\t\t...options.headers,",
         "\t\t\t\t...this.options.headers",
         "\t\t\t\x7d",
         "    \t\x7d).then((response) => \x7b",
         "\t\t\treturn new " ++ typeName ++ "(JSON.parse(response.text))",
         "\t\t\x7d)",
         "\t\x7d",
         "\t"] ∧
      tmplMethod file svc m = .ok methodText ∧
      svc.Method = ms1 ++ m :: ms2 ∧
      rangeE ms1 (tmplMethod file svc) = .ok before ∧
      rangeE ms2 (tmplMethod file svc) = .ok after ∧
      classText = String.intercalate "\n"
        ["", "", "class " ++ S ++ "Client \x7b",
         "\tconstructor(server, options) \x7b",
         "\t\tthis.server = server",
         "\t\tthis.options = options",
         "\t\x7d",
         "",
         "\t"] ++ before ++ methodText ++ after ++ "\n\x7d\n" ∧
      tmplService file svc = .ok classText ∧
      Contains out classText := by
  obtain ⟨classText, hclass, hcont⟩ := tmplExecute_service file svc out hs h
  obtain ⟨ms1, ms2, before, methodText, after, hsplit, hb, hmt, ha, hct⟩ :=
    tmplService_method file svc m classText hm hclass
  obtain ⟨typeName, hty⟩ := tmplMethod_ok_resolves file svc m methodText hmt
  have hlines := tmplMethod_lines file svc m typeName hty
  rw [hmt, hP, hS, hM] at hlines
  rw [hS] at hct
  exact ⟨typeName, methodText, classText, before, after, ms1, ms2, hty,
    Except.ok.inj hlines, hmt, hsplit, hb, ha, hct, hclass, hcont⟩

/-- Witness of C6: the scenario file, its service `Locator` and its method `Get`. -/
theorem client_method_url_witness :
    tmplExecute demoFile = .ok (emittedText demoFile) ∧
      ∃ classText : String,
        tmplService demoFile ⟨some "Locator", [⟨some "Get", some ".demo.Point"⟩]⟩ =
          .ok classText ∧
        Contains (emittedText demoFile) classText :=
  ⟨rfl,
   match client_method_url demoFile ⟨some "Locator", [⟨some "Get", some ".demo.Point"⟩]⟩
      ⟨some "Get", some ".demo.Point"⟩ "demo" "Locator" "Get" (emittedText demoFile)
      rfl (by decide) rfl (by decide) rfl rfl with
   | ⟨_, _, classText, _, _, _, _, _, _, _, _, _, _, _, hclass, hcont⟩ =>
     ⟨classText, hclass, hcont⟩⟩

/-! ## Failure of the generation -/

theorem tmplMethod_absent_output_type (file : FileDescriptorProto)
    (svc : ServiceDescriptorProto) (m : MethodDescriptorProto) (h : m.OutputType = none) :
    ∃ e, tmplMethod file svc m = .error e := by
  cases hp : file.Package with
  | none => exact ⟨.callPanic, by simp [tmplMethod, resolveOutputType, DerefString, hp]⟩
  | some pkg =>
    exact ⟨.nilDeref, by simp [tmplMethod, resolveOutputType, DerefString, derefArg, hp, h]⟩

theorem tmplExecute_absent_output_type (file : FileDescriptorProto)
    (svc : ServiceDescriptorProto) (m : MethodDescriptorProto) (hs : svc ∈ file.Service)
    (hm : m ∈ svc.Method) (h : m.OutputType = none) :
    ∃ e, tmplExecute file = .error e := by
  obtain ⟨e1, he1⟩ := tmplMethod_absent_output_type file svc m h
  obtain ⟨e2, he2⟩ := rangeE_error_of_mem svc.Method m (tmplMethod file svc) hm e1 he1
  have hsvc : tmplService file svc = .error e2 := by simp [tmplService, he2]
  obtain ⟨e3, he3⟩ := rangeE_error_of_mem file.Service svc (tmplService file) hs e2 hsvc
  exact ⟨e3, by simp [tmplExecute, he3]⟩

/-- C10: when some file of the request has a service method whose output type is absent,
`generateResponse` returns an error and no response: no entry is returned, also not for
the files before the offending one. -/
theorem generateResponse_absent_output_type (req : CodeGeneratorRequest)
    (file : FileDescriptorProto) (svc : ServiceDescriptorProto) (m : MethodDescriptorProto)
    (hf : file ∈ req.ProtoFile) (hs : svc ∈ file.Service) (hm : m ∈ svc.Method)
    (h : m.OutputType = none) :
    (∃ e, generateResponse req = .error e) ∧ ∀ resp, generateResponse req ≠ .ok resp := by
  obtain ⟨e, he⟩ := tmplExecute_absent_output_type file svc m hs hm h
  obtain ⟨e2, he2⟩ := generateLoop_error req.ProtoFile [] ⟨file, hf, e, he⟩
  refine ⟨⟨e2, he2⟩, ?_⟩
  intro resp hresp
  rw [generateResponse, he2] at hresp
  cases hresp

/-- Witness of C10: a file that emits an enum, followed by a file whose method has no
output type: the whole request fails. -/
theorem generateResponse_absent_output_type_witness :
    generateResponse ⟨[enumFile "a.proto", absentTypeFile]⟩ =
        .error (.executingTemplate .nilDeref) ∧
      ∀ resp, generateResponse ⟨[enumFile "a.proto", absentTypeFile]⟩ ≠ .ok resp :=
  ⟨by decide,
   (generateResponse_absent_output_type ⟨[enumFile "a.proto", absentTypeFile]⟩
      absentTypeFile ⟨some "S", [⟨some "M", none⟩]⟩ ⟨some "M", none⟩
      (by decide) (by decide) (by decide) rfl).2⟩

/-! ## The fetch call -/

theorem tmplExecute_contains_method (file : FileDescriptorProto)
    (svc : ServiceDescriptorProto) (m : MethodDescriptorProto) (out : String)
    (hs : svc ∈ file.Service) (hm : m ∈ svc.Method) (h : tmplExecute file = .ok out) :
    ∃ text, tmplMethod file svc m = .ok text ∧ Contains out text := by
  obtain ⟨classText, hclass, hcont⟩ := tmplExecute_service file svc out hs h
  obtain ⟨_, _, before, text, after, _, _, hmt, _, hct⟩ :=
    tmplService_method file svc m classText hm hclass
  refine ⟨text, hmt, contains_trans _ _ _ hcont ?_⟩
  rw [hct]
  refine ⟨(String.intercalate "\n"
      ["", "", "class " ++ printPtr svc.Name ++ "Client \x7b",
       "\tconstructor(server, options) \x7b",
       "\t\tthis.server = server",
       "\t\tthis.options = options",
       "\t\x7d",
       "",
       "\t"] ++ before).data, (after ++ "\n\x7d\n").data, ?_⟩
  simp only [String.data_append, List.append_assoc]

/-- C11: the text of every service method of a file is in the emitted text, and it is, line
by line: the method head, the `fetch` call with `method: 'POST'`, then
`body: JSON.stringify(req)`, then the `headers` object literal whose entries are, in this
order, `'Content-Type': 'application/json'`, `...options.headers` and
`...this.options.headers`, then the response wrapper. -/
theorem fetch_call_shape (file : FileDescriptorProto) (svc : ServiceDescriptorProto)
    (m : MethodDescriptorProto) (out : String)
    (hs : svc ∈ file.Service) (hm : m ∈ svc.Method) (h : tmplExecute file = .ok out) :
    ∃ typeName text : String,
      resolveOutputType file m = .ok typeName ∧
      tmplMethod file svc m = .ok text ∧
      Contains out text ∧
      text = String.intercalate "\n"
        ["", "\t" ++ printPtr m.Name ++ "(req, options) \x7b",
         "\t\treturn fetch(this.server+\"/" ++ printPtr file.Package ++ "." ++
           printPtr svc.Name ++ "/" ++ printPtr m.Name ++ "\", \x7b",
         "\t\t\tmethod: 'POST',",
         "    \t\tbody: JSON.stringify(req),",
         "    \t\theaders: \x7b",
         "        \t\t'Content-Type': 'application/json',",
         "\t\t\t\t...options.headers,",
         "\t\t\t\t...this.options.headers",
         "\t\t\t\x7d",
         "    \t\x7d).then((response) => \x7b",
         "\t\t\treturn new " ++ typeName ++ "(JSON.parse(response.text))",
         "\t\t\x7d)",
         "\t\x7d",
         "\t"] := by
  obtain ⟨text, hmt, hcont⟩ := tmplExecute_contains_method file svc m out hs hm h
  obtain ⟨typeName, hty⟩ := tmplMethod_ok_resolves file svc m text hmt
  have hlines := tmplMethod_lines file svc m typeName hty
  rw [hmt] at hlines
  exact ⟨typeName, text, hty, hmt, hcont, Except.ok.inj hlines⟩

/-- Witness of C11: the method `Get` of the service `Locator` of the scenario file. -/
theorem fetch_call_shape_witness :
    tmplExecute demoFile = .ok (emittedText demoFile) ∧
      ∃ text : String,
        tmplMethod demoFile ⟨some "Locator", [⟨some "Get", some ".demo.Point"⟩]⟩
          ⟨some "Get", some ".demo.Point"⟩ = .ok text ∧
        Contains (emittedText demoFile) text :=
  ⟨rfl,
   match fetch_call_shape demoFile ⟨some "Locator", [⟨some "Get", some ".demo.Point"⟩]⟩
      ⟨some "Get", some ".demo.Point"⟩ (emittedText demoFile) (by decide) (by decide) rfl with
   | ⟨_, text, _, hmt, hcont, _⟩ => ⟨text, hmt, hcont⟩⟩

/-! ## The end-to-end scenario -/

set_option maxRecDepth 1000000 in
/-- C12: for the single file `demo.proto` of package `demo` with the message `Point` (field
`x` with the flag unset, field `y` with the flag true) and the service `Locator` with the
method `Get` returning `.demo.Point`, `generateResponse` succeeds with exactly one entry,
named `demo.js`; its content is the text below: the class `LocatorClient` whose method
`Get(req, options)` fetches `this.server+"/demo.Locator/Get"` and wraps the response with
`new Point(`, and the class `Point` with accessors for `x` and `y` and a `toJSON` that
holds the definedness check of `x` and none for `y`. -/
theorem generateResponse_demo :
    ∃ content : String,
      generateResponse ⟨[demoFile]⟩ = .ok ⟨[⟨some "demo.js", some content⟩]⟩ ∧
      content = String.intercalate "\n"
        ["class LocatorClient \x7b",
         "\tconstructor(server, options) \x7b",
         "\t\tthis.server = server",
         "\t\tthis.options = options",
         "\t\x7d",
         "",
         "\t",
         "\tGet(req, options) \x7b",
         "\t\treturn fetch(this.server+\"/demo.Locator/Get\", \x7b",
         "\t\t\tmethod: 'POST',",
         "    \t\tbody: JSON.stringify(req),",
         "    \t\theaders: \x7b",
         "        \t\t'Content-Type': 'application/json',",
         "\t\t\t\t...options.headers,",
         "\t\t\t\t...this.options.headers",
         "\t\t\t\x7d",
         "    \t\x7d).then((response) => \x7b",
         "\t\t\treturn new Point(JSON.parse(response.text))",
         "\t\t\x7d)",
         "\t\x7d",
         "\t",
         "\x7d",
         "", "", "", "", "",
         "class Point \x7b",
         "\t",
         "\tconstructor(o) \x7b",
         "\t\t\tthis._x = o.x",
         "\t\t\tthis._y = o.y",
         "\t\x7d",
         "",
         "\t",
         "\tget x() \x7b",
         "\t\treturn this._x ",
         "\t\x7d",
         "",
         "\tset x(x) \x7b",
         "\t\tthis._x = x",
         "\t\x7d",
         "\t",
         "\tget y() \x7b",
         "\t\treturn this._y ",
         "\t\x7d",
         "",
         "\tset y(y) \x7b",
         "\t\tthis._y = y",
         "\t\x7d",
         "\t",
         "\ttoJSON() \x7b",
         "\t\tobj := new Object()",
         "\t\t",
         "\t\tif this._x === undefined \x7b",
         "\t\t\tthrow 'Field x is both undefined and not optional'",
         "\t\t\x7d",
         "\t\tobj.x = this._x",
         "\t\t",
         "\t\tobj.y = this._y",
         "\t\t",
         "\t\treturn obj",
         "\t\x7d",
         "\x7d"] ∧
      Contains content "class Point \x7b" ∧
      Contains content "get x() \x7b" ∧ Contains content "set x(x) \x7b" ∧
      Contains content "get y() \x7b" ∧ Contains content "set y(y) \x7b" ∧
      Contains content "class LocatorClient \x7b" ∧
      Contains content
        "\tGet(req, options) \x7b\n\t\treturn fetch(this.server+\"/demo.Locator/Get\", \x7b" ∧
      Contains content "return new Point(JSON.parse(response.text))" ∧
      Contains content
        "if this._x === undefined \x7b\n\t\t\tthrow 'Field x is both undefined and not optional'\n\t\t\x7d\n\t\tobj.x = this._x" ∧
      ¬ Contains content "if this._y === undefined" := by
  refine ⟨_, rfl, rfl, ?_, ?_, ?_, ?_, ?_, ?_, ?_, ?_, ?_, ?_⟩ <;> decide!

/-! ## Statelessness and trimming -/

theorem specResponse_append (xs ys : List FileDescriptorProto) :
    specResponse (xs ++ ys) = specResponse xs ++ specResponse ys := by
  simp [specResponse, List.filter_append]

theorem specResponse_flatten (xs : List FileDescriptorProto) :
    specResponse xs = (xs.map (fun f => specResponse [f])).flatten := by
  induction xs with
  | nil => rfl
  | cons x xs ih =>
    have h : x :: xs = [x] ++ xs := rfl
    rw [h, specResponse_append, ih]
    rfl

theorem generateResponse_single (f : FileDescriptorProto) (buf : String)
    (h : tmplExecute f = .ok buf) : generateResponse ⟨[f]⟩ = .ok ⟨specResponse [f]⟩ :=
  (generateResponse_ok_iff ⟨[f]⟩ _).mpr
    ⟨fun g hg => by rw [List.mem_singleton.mp hg]; exact ⟨buf, h⟩, rfl⟩

/-- C14: generation is stateless across files: when it succeeds on `xs` and on `ys`, it
succeeds on `xs ++ ys` with the output of `xs` followed by the output of `ys`; and the
output of a request is the concatenation, in order, of the outputs the files produce when
each is generated alone. -/
theorem generateResponse_append (xs ys : List FileDescriptorProto)
    (rx ry : CodeGeneratorResponse)
    (hx : generateResponse ⟨xs⟩ = .ok rx) (hy : generateResponse ⟨ys⟩ = .ok ry) :
    generateResponse ⟨xs ++ ys⟩ = .ok ⟨rx.File ++ ry.File⟩ ∧
    (∀ f ∈ xs, ∃ r, generateResponse ⟨[f]⟩ = .ok r) ∧
    rx.File = (xs.map (fun f =>
      match generateResponse ⟨[f]⟩ with
      | .ok r => r.File
      | .error _ => [])).flatten := by
  obtain ⟨hax, rfl⟩ := (generateResponse_ok_iff ⟨xs⟩ rx).mp hx
  obtain ⟨hay, rfl⟩ := (generateResponse_ok_iff ⟨ys⟩ ry).mp hy
  refine ⟨?_, ?_, ?_⟩
  · refine (generateResponse_ok_iff ⟨xs ++ ys⟩ _).mpr ⟨?_, ?_⟩
    · intro f hf
      rcases List.mem_append.mp hf with hf | hf
      · exact hax f hf
      · exact hay f hf
    · simp only [specResponse_append]
  · intro f hf
    obtain ⟨buf, hb⟩ := hax f hf
    exact ⟨_, generateResponse_single f buf hb⟩
  · show specResponse xs = _
    rw [specResponse_flatten]
    congr 1
    apply List.map_congr_left
    intro f hf
    obtain ⟨buf, hb⟩ := hax f hf
    rw [generateResponse_single f buf hb]

/-- Witness of C14: two enum files, generated together and apart. -/
theorem generateResponse_append_witness :
    generateResponse ⟨[enumFile "a.proto"] ++ [enumFile "b.proto"]⟩ =
      .ok ⟨(⟨specResponse [enumFile "a.proto"]⟩ : CodeGeneratorResponse).File ++
        (⟨specResponse [enumFile "b.proto"]⟩ : CodeGeneratorResponse).File⟩ :=
  (generateResponse_append [enumFile "a.proto"] [enumFile "b.proto"] _ _
    (generateResponse_single _ _ rfl) (generateResponse_single _ _ rfl)).1

theorem dropWhile_head_false {α : Type} (p : α → Bool) (l : List α) (a : α)
    (h : (l.dropWhile p).head? = some a) : p a = false := by
  induction l with
  | nil => simp at h
  | cons x xs ih =>
    by_cases hx : p x = true
    · rw [List.dropWhile_cons_of_pos hx] at h
      exact ih h
    · rw [List.dropWhile_cons_of_neg hx] at h
      simp only [List.head?_cons, Option.some.injEq] at h
      rw [← h]
      simpa using hx

theorem dropWhile_eq_self {α : Type} (p : α → Bool) (l : List α)
    (h : ∀ a, l.head? = some a → p a = false) : l.dropWhile p = l := by
  cases l with
  | nil => rfl
  | cons x xs =>
    have hx := h x rfl
    rw [List.dropWhile_cons_of_neg (by simp [hx])]

theorem reverse_dropWhile_prefix {α : Type} (p : α → Bool) (l : List α) :
    (l.reverse.dropWhile p).reverse <+: l := by
  have h := List.dropWhile_suffix p (l := l.reverse)
  have h2 := List.reverse_prefix.mpr h
  simpa using h2

theorem TrimSpace_last (s : String) (c : Char)
    (h : (TrimSpace s).data.getLast? = some c) : isSpace c = false := by
  simp only [TrimSpace, List.getLast?_reverse] at h
  exact dropWhile_head_false _ _ _ h

theorem TrimSpace_head (s : String) (c : Char)
    (h : (TrimSpace s).data.head? = some c) : isSpace c = false := by
  simp only [TrimSpace] at h
  obtain ⟨u, hu⟩ := reverse_dropWhile_prefix isSpace (s.data.dropWhile isSpace)
  apply dropWhile_head_false isSpace s.data c
  rw [← hu]
  cases ht : ((s.data.dropWhile isSpace).reverse.dropWhile isSpace).reverse with
  | nil => rw [ht] at h; simp at h
  | cons x xs => rw [ht] at h; simpa using h

theorem TrimSpace_idem (s : String) : TrimSpace (TrimSpace s) = TrimSpace s := by
  have h1 : (TrimSpace s).data.dropWhile isSpace = (TrimSpace s).data :=
    dropWhile_eq_self _ _ (TrimSpace_head s)
  have h2 : (TrimSpace s).data.reverse.dropWhile isSpace = (TrimSpace s).data.reverse :=
    dropWhile_eq_self _ _ (fun a ha => TrimSpace_last s a (by
      rw [List.getLast?_eq_head?_reverse]; exact ha))
  apply String.ext
  show (((TrimSpace s).data.dropWhile isSpace).reverse.dropWhile isSpace).reverse = _
  rw [h1, h2, List.reverse_reverse]

/-- C15: on success, the content of every entry is the trimmed form of the text the
template emitted for its file; it is not empty, its first and its last character are not
white space, and it equals its own trimmed form. -/
theorem generateResponse_content_trimmed (req : CodeGeneratorRequest)
    (resp : CodeGeneratorResponse) (h : generateResponse req = .ok resp) :
    ∀ e ∈ resp.File, ∃ f ∈ req.ProtoFile, ∃ buf content : String,
      tmplExecute f = .ok buf ∧ e.Content = some content ∧ content = TrimSpace buf ∧
      content ≠ "" ∧ TrimSpace content = content ∧
      (∀ c, content.data.head? = some c → isSpace c = false) ∧
      (∀ c, content.data.getLast? = some c → isSpace c = false) := by
  obtain ⟨hall, rfl⟩ := (generateResponse_ok_iff req resp).mp h
  intro e he
  obtain ⟨f, hf, hne, rfl⟩ := (mem_specResponse _ _).mp he
  obtain ⟨buf, hb⟩ := hall f hf
  have ht := trimmedText_ok f buf hb
  refine ⟨f, hf, buf, TrimSpace buf, hb, by rw [ht], rfl, by rw [← ht]; exact hne,
    TrimSpace_idem buf, TrimSpace_head buf, TrimSpace_last buf⟩

/-- Witness of C15: the one entry of a request of one enum file. -/
theorem generateResponse_content_trimmed_witness :
    ∃ buf content : String,
      tmplExecute (enumFile "a.proto") = .ok buf ∧ content = TrimSpace buf ∧ content ≠ "" ∧
      TrimSpace content = content :=
  match generateResponse_content_trimmed ⟨[enumFile "a.proto"]⟩
      ⟨specResponse [enumFile "a.proto"]⟩
      (generateResponse_single (enumFile "a.proto") _ rfl)
      ⟨some (specOutputName (enumFile "a.proto").GetName),
        some (trimmedText (enumFile "a.proto"))⟩
      ((mem_specResponse _ _).mpr ⟨enumFile "a.proto", by simp, by decide, rfl⟩) with
  | ⟨_, hf, buf, content, hb, _, hc, hne, hid, _, _⟩ =>
    ⟨buf, content, by rw [List.mem_singleton.mp hf] at hb; exact hb, hc, hne, hid⟩

/-! ## Files that declare something -/

theorem TrimSpace_ne_empty (s : String) (c : Char) (hc : c ∈ s.data)
    (hs : isSpace c = false) : TrimSpace s ≠ "" := by
  intro h
  have hd : ((s.data.dropWhile isSpace).reverse.dropWhile isSpace).reverse = [] := by
    have := congrArg String.data h
    simpa [TrimSpace] using this
  have h1 : ∀ a ∈ s.data.dropWhile isSpace, isSpace a = true := by
    have h2 := List.reverse_eq_nil_iff.mp hd
    have h3 := List.dropWhile_eq_nil_iff.mp h2
    intro a ha
    exact h3 a (List.mem_reverse.mpr ha)
  have h4 : s.data.dropWhile isSpace = [] := by
    cases hl : s.data.dropWhile isSpace with
    | nil => rfl
    | cons x xs =>
      have hx := dropWhile_head_false isSpace s.data x (by rw [hl]; rfl)
      have hx2 := h1 x (by rw [hl]; exact List.mem_cons_self _ _)
      rw [hx] at hx2
      cases hx2
  have h5 := List.dropWhile_eq_nil_iff.mp h4 c hc
  rw [hs] at h5
  cases h5

theorem mem_of_contains (s t : String) (c : Char) (h : Contains s t) (hc : c ∈ t.data) :
    c ∈ s.data := by
  obtain ⟨a, b, hab⟩ := h
  rw [← hab]
  simp [hc]

theorem contains_append_right (s t u : String) (h : Contains s u) :
    Contains (s ++ t) u := by
  obtain ⟨a, b, hab⟩ := h
  exact ⟨a, b ++ t.data, by simp [← hab]⟩

theorem contains_append_left (s t u : String) (h : Contains t u) :
    Contains (s ++ t) u := by
  obtain ⟨a, b, hab⟩ := h
  exact ⟨s.data ++ a, b, by simp [← hab]⟩

theorem tmplExecute_contains_enum (file : FileDescriptorProto) (out : String)
    (e : EnumDescriptorProto) (he : e ∈ file.EnumType) (h : tmplExecute file = .ok out) :
    Contains out (DefineEnum ⟨e, ""⟩) := by
  unfold tmplExecute at h
  split at h
  · cases h
  · cases h
    have h1 := range_contains file.EnumType e
      (fun e => "\n" ++ DefineEnum ⟨e, ""⟩ ++ "\n") he
    have h2 := contains_trans _ _ _ h1 (contains_mid "\n" (DefineEnum ⟨e, ""⟩) "\n")
    exact contains_append_right _ _ _ (contains_append_right _ _ _
      (contains_append_right _ _ _ (contains_append_left _ _ _ h2)))

theorem tmplExecute_visible (f : FileDescriptorProto) (buf : String)
    (hd : f.Service ≠ [] ∨ f.EnumType ≠ [] ∨ f.MessageType ≠ [])
    (h : tmplExecute f = .ok buf) : ∃ c ∈ buf.data, isSpace c = false := by
  rcases hd with hs | he | hm
  · obtain ⟨svc, hsvc⟩ := List.exists_mem_of_ne_nil _ hs
    obtain ⟨classText, hclass, hcont⟩ := tmplExecute_service f svc buf hsvc h
    refine ⟨'c', mem_of_contains _ _ _ hcont ?_, by decide⟩
    unfold tmplService at hclass
    split at hclass
    · cases hclass
    · cases hclass
      simp
  · obtain ⟨e, hmem⟩ := List.exists_mem_of_ne_nil _ he
    have hcont := tmplExecute_contains_enum f buf e hmem h
    refine ⟨'=', mem_of_contains _ _ _ hcont ?_, by decide⟩
    have ht : trimRightSpace " = \x7b\n" = " = \x7b" := by decide
    simp [DefineEnum, ht]
  · obtain ⟨msg, hmem⟩ := List.exists_mem_of_ne_nil _ hm
    have hcont := tmplExecute_contains_message f buf msg hmem h
    refine ⟨'c', mem_of_contains _ _ _ hcont ?_, by decide⟩
    simp [tmplMessage]

/-- C17: on success, a file that has at least one service, one top-level enum or one
message (a service without methods or a message without fields included) emits a text
with a character that is not white space, so its trimmed text is not empty and the file
yields exactly one entry, between the entries of the files before it and after it. -/
theorem generateResponse_declaring_file (xs ys : List FileDescriptorProto)
    (f : FileDescriptorProto) (resp : CodeGeneratorResponse)
    (hd : f.Service ≠ [] ∨ f.EnumType ≠ [] ∨ f.MessageType ≠ [])
    (h : generateResponse ⟨xs ++ f :: ys⟩ = .ok resp) :
    ∃ buf, tmplExecute f = .ok buf ∧ (∃ c ∈ buf.data, isSpace c = false) ∧
      TrimSpace buf ≠ "" ∧
      resp.File = specResponse xs ++
        [⟨some (specOutputName f.GetName), some (TrimSpace buf)⟩] ++ specResponse ys := by
  obtain ⟨hall, rfl⟩ := (generateResponse_ok_iff _ resp).mp h
  obtain ⟨buf, hb⟩ := hall f (by simp)
  obtain ⟨c, hc, hs⟩ := tmplExecute_visible f buf hd hb
  have hne := TrimSpace_ne_empty buf c hc hs
  have ht := trimmedText_ok f buf hb
  refine ⟨buf, hb, ⟨c, hc, hs⟩, hne, ?_⟩
  have hsplit : xs ++ f :: ys = xs ++ ([f] ++ ys) := rfl
  show specResponse (xs ++ f :: ys) = _
  rw [hsplit, specResponse_append, specResponse_append, List.append_assoc]
  congr 2
  simp [specResponse, List.filter_cons, ht, hne, TrimSuffix_Ext]

/-- Witness of C17: a file whose only declaration is a service without methods, between two
enum files. -/
theorem generateResponse_declaring_file_witness :
    ∃ buf, tmplExecute bareServiceFile = .ok buf ∧ TrimSpace buf ≠ "" ∧
      (⟨specResponse ([enumFile "a.proto"] ++ bareServiceFile :: [enumFile "b.proto"])⟩ :
          CodeGeneratorResponse).File =
        specResponse [enumFile "a.proto"] ++
          [⟨some (specOutputName bareServiceFile.GetName), some (TrimSpace buf)⟩] ++
          specResponse [enumFile "b.proto"] :=
  match generateResponse_declaring_file [enumFile "a.proto"] [enumFile "b.proto"]
      bareServiceFile ⟨specResponse ([enumFile "a.proto"] ++ bareServiceFile ::
        [enumFile "b.proto"])⟩ (Or.inl (by decide))
      rfl with
  | ⟨buf, hb, _, hne, hfile⟩ => ⟨buf, hb, hne, hfile⟩

/-! ## Type references outside the package -/

/-- C18: when the output-type reference of a method does not begin with `.`, the package
and `.`, the resolver strips nothing and the method wraps the response with
`new <reference>(`; and the prefix is stripped once only: `.pkg.` followed by `.pkg.T`
resolves to `.pkg.T`.  In package `pkg`, `.other.T` stays `.other.T` and `.pkg..pkg.T`
becomes `.pkg.T`. -/
theorem resolveOutputType_foreign :
    (∀ (file : FileDescriptorProto) (svc : ServiceDescriptorProto)
        (m : MethodDescriptorProto) (pkg ref : String),
      file.Package = some pkg → m.OutputType = some ref →
      HasPrefix ref ("." ++ pkg ++ ".") = false →
      resolveOutputType file m = .ok ref ∧
      tmplMethod file svc m = .ok (String.intercalate "\n"
        ["", "\t" ++ printPtr m.Name ++ "(req, options) \x7b",
         "\t\treturn fetch(this.server+\"/" ++ pkg ++ "." ++
           printPtr svc.Name ++ "/" ++ printPtr m.Name ++ "\", \x7b",
         "\t\t\tmethod: 'POST',",
         "    \t\tbody: JSON.stringify(req),",
         "    \t\theaders: \x7b",
         "        \t\t'Content-Type': 'application/json',",
         "\t\t\t\t...options.headers,",
         "\t\t\t\t...this.options.headers",
         "\t\t\t\x7d",
         "    \t\x7d).then((response) => \x7b",
         "\t\t\treturn new " ++ ref ++ "(JSON.parse(response.text))",
         "\t\t\x7d)",
         "\t\x7d",
         "\t"])) ∧
    (∀ (file : FileDescriptorProto) (m : MethodDescriptorProto) (pkg T : String),
      file.Package = some pkg →
      m.OutputType = some ("." ++ pkg ++ "." ++ ("." ++ pkg ++ "." ++ T)) →
      resolveOutputType file m = .ok ("." ++ pkg ++ "." ++ T)) ∧
    resolveOutputType foreignTypeFile ⟨some "A", some ".other.T"⟩ = .ok ".other.T" ∧
    resolveOutputType foreignTypeFile ⟨some "B", some ".pkg..pkg.T"⟩ = .ok ".pkg.T" := by
  refine ⟨?_, ?_, by decide, by decide⟩
  · intro file svc m pkg ref hp ho hn
    have hr : resolveOutputType file m = .ok ref := by
      simp only [resolveOutputType, hp, ho, DerefString, derefArg, printfDots, TrimPrefix, hn]
      rfl
    refine ⟨hr, ?_⟩
    rw [tmplMethod_lines file svc m ref hr, hp]
    rfl
  · intro file m pkg T hp ho
    exact resolveOutputType_own_package file m pkg _ hp ho

/-- Witness of C18: the method returning `.other.T` in the file of package `pkg`. -/
theorem resolveOutputType_foreign_witness :
    HasPrefix ".other.T" ("." ++ "pkg" ++ ".") = false ∧
      resolveOutputType foreignTypeFile ⟨some "A", some ".other.T"⟩ = .ok ".other.T" :=
  ⟨by decide,
   (resolveOutputType_foreign.1 foreignTypeFile ⟨some "S", []⟩ ⟨some "A", some ".other.T"⟩
      "pkg" ".other.T" rfl rfl (by decide)).1⟩

/-! ## Totality of the generation -/

theorem rangeE_ok_of_all {α : Type} (xs : List α) (body : α → Except ExecError String)
    (h : ∀ x ∈ xs, ∃ t, body x = .ok t) : ∃ t, rangeE xs body = .ok t := by
  induction xs with
  | nil => exact ⟨"", rfl⟩
  | cons x xs ih =>
    obtain ⟨s, hs⟩ := h x (List.mem_cons_self _ _)
    obtain ⟨t, ht⟩ := ih (fun y hy => h y (List.mem_cons_of_mem _ hy))
    exact ⟨s ++ t, by simp only [rangeE, hs, ht]⟩

theorem resolveOutputType_ok_iff (file : FileDescriptorProto) (m : MethodDescriptorProto) :
    (∃ t, resolveOutputType file m = .ok t) ↔ file.Package ≠ none ∧ m.OutputType ≠ none := by
  cases hp : file.Package <;> cases ho : m.OutputType <;>
    simp [resolveOutputType, DerefString, derefArg, hp, ho]

theorem tmplMethod_ok_iff (file : FileDescriptorProto) (svc : ServiceDescriptorProto)
    (m : MethodDescriptorProto) :
    (∃ t, tmplMethod file svc m = .ok t) ↔ file.Package ≠ none ∧ m.OutputType ≠ none := by
  rw [← resolveOutputType_ok_iff]
  constructor
  · rintro ⟨t, ht⟩
    exact tmplMethod_ok_resolves file svc m t ht
  · rintro ⟨t, ht⟩
    exact ⟨_, tmplMethod_lines file svc m t ht⟩

theorem tmplExecute_ok_iff (file : FileDescriptorProto) :
    (∃ buf, tmplExecute file = .ok buf) ↔
      ∀ s ∈ file.Service, ∀ m ∈ s.Method, file.Package ≠ none ∧ m.OutputType ≠ none := by
  constructor
  · rintro ⟨buf, hb⟩ s hs m hm
    obtain ⟨text, hmt, _⟩ := tmplExecute_contains_method file s m buf hs hm hb
    exact (tmplMethod_ok_iff file s m).mp ⟨text, hmt⟩
  · intro h
    have hsvc : ∀ s ∈ file.Service, ∃ t, tmplService file s = .ok t := by
      intro s hs
      obtain ⟨t, ht⟩ := rangeE_ok_of_all s.Method (tmplMethod file s)
        (fun m hm => (tmplMethod_ok_iff file s m).mpr (h s hs m hm))
      exact ⟨_, by simp only [tmplService, ht]; rfl⟩
    obtain ⟨t, ht⟩ := rangeE_ok_of_all file.Service (tmplService file) hsvc
    exact ⟨_, by simp only [tmplExecute, ht]; rfl⟩

/-- C13, refuted as stated: in the request of the one file `noPackageFile`, every service
method has an output type, and `generateResponse` returns an error, as the file declares a
method and has no package; so presence of the output types does not make the generation
succeed. -/
theorem generateResponse_no_package_fails :
    outputTypesPresent ⟨[noPackageFile]⟩ = true ∧
    generateResponse ⟨[noPackageFile]⟩ = .error (.executingTemplate .callPanic) ∧
    ¬ (∀ req, outputTypesPresent req = true → ∃ resp, generateResponse req = .ok resp) := by
  refine ⟨by decide, by decide, ?_⟩
  intro h
  obtain ⟨resp, hresp⟩ := h ⟨[noPackageFile]⟩ (by decide)
  have he : generateResponse ⟨[noPackageFile]⟩ = .error (.executingTemplate .callPanic) := by
    decide
  rw [he] at hresp
  cases hresp

/-- C13, amended: `generateResponse` returns a response and no error exactly when, for every
service method of every file, the output-type reference is present and the file has a
package identifier; nothing else in the files matters. -/
theorem generateResponse_total_iff (req : CodeGeneratorRequest) :
    (∃ resp, generateResponse req = .ok resp) ↔
      ∀ f ∈ req.ProtoFile, ∀ s ∈ f.Service, ∀ m ∈ s.Method,
        f.Package ≠ none ∧ m.OutputType ≠ none := by
  constructor
  · rintro ⟨resp, hresp⟩ f hf
    obtain ⟨hall, _⟩ := (generateResponse_ok_iff req resp).mp hresp
    exact (tmplExecute_ok_iff f).mp (hall f hf)
  · intro h
    exact ⟨_, (generateResponse_ok_iff req _).mpr
      ⟨fun f hf => (tmplExecute_ok_iff f).mpr (h f hf), rfl⟩⟩

/-- Witness of C13, amended: the scenario request, whose one method has an output type and
whose file has a package, succeeds. -/
theorem generateResponse_total_iff_witness :
    (∀ f ∈ (⟨[demoFile]⟩ : CodeGeneratorRequest).ProtoFile, ∀ s ∈ f.Service,
        ∀ m ∈ s.Method, f.Package ≠ none ∧ m.OutputType ≠ none) ∧
      ∃ resp, generateResponse ⟨[demoFile]⟩ = .ok resp :=
  ⟨by decide, (generateResponse_total_iff ⟨[demoFile]⟩).mpr (by decide)⟩

/-! ## Nested enums -/

theorem rangeIdx_entryLines (vs : List EnumValueDescriptorProto) (i n : Int)
    (indent : String) :
    rangeIdx vs i (fun j w =>
      "\n" ++ indent ++ "\t" ++ printPtr w.Name ++ ": \"" ++ printPtr w.Name ++ "\"" ++
      (if Subtract n 1 ≠ j then "," else "") ++ trimRightSpace "\n") =
    range (entryLinesFrom vs i n indent) (fun l => "\n" ++ l) := by
  induction vs generalizing i with
  | nil => rfl
  | cons v vs ih =>
    rw [rangeIdx, ih (i + 1), entryLinesFrom, range_cons, trimRightSpace_newline]
    apply String.ext
    simp [Subtract]

theorem DefineEnum_lines (e : EnumDescriptorProto) (indent : String) :
    DefineEnum ⟨e, indent⟩ = String.intercalate "\n" (enumLines e indent) := by
  have ht : trimRightSpace " = \x7b\n" = " = \x7b" := by decide
  unfold DefineEnum
  dsimp only
  rw [rangeIdx_entryLines, ht]
  simp only [enumLines, List.cons_append, List.nil_append, intercalate_cons, range_cons,
    range_append, range_nil]
  apply String.ext
  simp

theorem indentLine_of_ne (l : String) (h : l ≠ "") : indentLine l = "\t" ++ l := by
  simp [indentLine, h]

theorem entryLinesFrom_indent (vs : List EnumValueDescriptorProto) (i n : Int) :
    entryLinesFrom vs i n "\t" = (entryLinesFrom vs i n "").map indentLine := by
  induction vs generalizing i with
  | nil => rfl
  | cons v vs ih =>
    have hne : "" ++ "\t" ++ printPtr v.Name ++ ": \"" ++ printPtr v.Name ++ "\"" ++
        (if n - 1 ≠ i then "," else "") ≠ "" := by
      intro h
      have := congrArg String.data h
      simp at this
    rw [entryLinesFrom, entryLinesFrom, List.map_cons, ih (i + 1), indentLine_of_ne _ hne]
    congr 1

theorem enumLines_indent (e : EnumDescriptorProto) :
    enumLines e "\t" = (enumLines e "").map indentLine := by
  have h1 : indentLine "" = "" := rfl
  have h2 : indentLine ("" ++ printPtr e.Name ++ " = \x7b") =
      "\t" ++ printPtr e.Name ++ " = \x7b" := by
    rw [indentLine_of_ne]
    · apply String.ext
      simp
    · intro h
      have := congrArg String.data h
      simp at this
  have h3 : indentLine ("" ++ "\x7d") = "\t" ++ "\x7d" := by decide
  simp only [enumLines, List.cons_append, List.nil_append, List.map_cons, List.map_append,
    List.map_nil, h1, h2, h3, entryLinesFrom_indent]

theorem entryLinesFrom_no_newline (vs : List EnumValueDescriptorProto) (i n : Int)
    (h : ∀ v ∈ vs, '\n' ∉ (printPtr v.Name).data) :
    ∀ l ∈ entryLinesFrom vs i n "", '\n' ∉ l.data := by
  induction vs generalizing i with
  | nil => intro l hl; cases hl
  | cons v vs ih =>
    intro l hl
    rw [entryLinesFrom] at hl
    rcases List.mem_cons.mp hl with rfl | hl
    · have hv := h v (List.mem_cons_self _ _)
      by_cases hc : n - 1 = i <;> simp [hc, hv]
    · exact ih (i + 1) (fun w hw => h w (List.mem_cons_of_mem _ hw)) l hl

theorem enumLines_no_newline (e : EnumDescriptorProto)
    (hn : '\n' ∉ (printPtr e.Name).data)
    (hv : ∀ v ∈ e.Value, '\n' ∉ (printPtr v.Name).data) :
    ∀ l ∈ enumLines e "", '\n' ∉ l.data := by
  intro l hl
  simp only [enumLines, List.cons_append, List.nil_append, List.mem_cons, List.mem_append,
    List.mem_singleton, List.not_mem_nil, or_false] at hl
  rcases hl with rfl | rfl | hl | rfl | rfl
  · decide
  · simp [hn]
  · exact entryLinesFrom_no_newline _ _ _ hv l hl
  · decide
  · decide

theorem indentText_intercalate (l : String) (ls : List String)
    (h : ∀ x ∈ l :: ls, '\n' ∉ x.data) :
    indentText (String.intercalate "\n" (l :: ls)) =
      String.intercalate "\n" ((l :: ls).map indentLine) := by
  rw [indentText, splitLines_intercalate l ls h, List.map_map]
  rfl

/-- C16, refuted as stated: for the enum named `A`, newline, `B` (no values) the nested text
has the tab before `A` only, while a tab before each non-empty line of the top-level text
also puts one before `B = {`; the two texts differ. -/
theorem DefineEnum_nested_newline_name :
    DefineEnum ⟨⟨some "A\nB", []⟩, ""⟩ = "\nA\nB = \x7b\n\x7d\n" ∧
    DefineEnum ⟨⟨some "A\nB", []⟩, "\t"⟩ = "\n\tA\nB = \x7b\n\t\x7d\n" ∧
    indentText (DefineEnum ⟨⟨some "A\nB", []⟩, ""⟩) = "\n\tA\n\tB = \x7b\n\t\x7d\n" ∧
    DefineEnum ⟨⟨some "A\nB", []⟩, "\t"⟩ ≠ indentText (DefineEnum ⟨⟨some "A\nB", []⟩, ""⟩) := by
  decide

/-- C16, amended: for every enum whose name and value names hold no newline character, the
text `DefineEnum` emits with indent one tab (nested in a message) equals the text it emits
with the empty indent (file scope) with a single tab before each non-empty line and
nothing else changed; the lines of the top-level text are the empty line, the head
`E = {`, the entry lines, the closing `}` and the empty line. -/
theorem DefineEnum_nested_indent (e : EnumDescriptorProto)
    (hn : '\n' ∉ (printPtr e.Name).data)
    (hv : ∀ v ∈ e.Value, '\n' ∉ (printPtr v.Name).data) :
    DefineEnum ⟨e, "\t"⟩ = indentText (DefineEnum ⟨e, ""⟩) ∧
    splitLines (DefineEnum ⟨e, ""⟩).data = (enumLines e "").map String.data := by
  have hno := enumLines_no_newline e hn hv
  have hcons : enumLines e "" = "" :: (enumLines e "").tail := rfl
  rw [hcons] at hno
  refine ⟨?_, ?_⟩
  · rw [DefineEnum_lines e "\t", DefineEnum_lines e "", enumLines_indent, hcons,
      indentText_intercalate _ _ hno]
  · rw [DefineEnum_lines, hcons]
    exact splitLines_intercalate _ _ hno

/-- Witness of C16, amended: the enum `Kind` with the values `A` and `B`, nested and at file
scope. -/
theorem DefineEnum_nested_indent_witness :
    DefineEnum ⟨⟨some "Kind", [⟨some "A"⟩, ⟨some "B"⟩]⟩, ""⟩ =
        "\nKind = \x7b\n\tA: \"A\",\n\tB: \"B\"\n\x7d\n" ∧
      DefineEnum ⟨⟨some "Kind", [⟨some "A"⟩, ⟨some "B"⟩]⟩, "\t"⟩ =
        "\n\tKind = \x7b\n\t\tA: \"A\",\n\t\tB: \"B\"\n\t\x7d\n" ∧
      DefineEnum ⟨⟨some "Kind", [⟨some "A"⟩, ⟨some "B"⟩]⟩, "\t"⟩ =
        indentText (DefineEnum ⟨⟨some "Kind", [⟨some "A"⟩, ⟨some "B"⟩]⟩, ""⟩) :=
  ⟨by decide, by decide,
   (DefineEnum_nested_indent ⟨some "Kind", [⟨some "A"⟩, ⟨some "B"⟩]⟩
      (by decide) (by decide)).1⟩

/-! ## The helper `dict` -/

theorem lookup_filter_ne (d : GoMap) (k k2 : String) (h : k2 ≠ k) :
    List.lookup k2 (d.filter (fun p => p.1 != k)) = List.lookup k2 d := by
  induction d with
  | nil => rfl
  | cons p d ih =>
    obtain ⟨a, b⟩ := p
    by_cases ha : a = k
    · subst ha
      have hb : (k2 == a) = false := by simpa using h
      simp [List.filter_cons, List.lookup, hb, ih]
    · by_cases h2 : k2 = a
      · subst h2
        simp [List.filter_cons, List.lookup, ha]
      · have h3 : (k2 == a) = false := by simpa using h2
        simp [List.filter_cons, List.lookup, ha, h3, ih]

theorem mapGet_mapSet (d : GoMap) (k k2 : String) (v : Value) :
    mapGet (mapSet d k v) k2 = if k2 = k then some v else mapGet d k2 := by
  unfold mapGet mapSet
  by_cases h : k2 = k
  · subst h
    simp [List.lookup]
  · have hb : (k2 == k) = false := by simpa using h
    rw [if_neg h, ← lookup_filter_ne d k k2 h]
    simp [List.lookup, hb]

theorem dictLoop_error_iff (n : Nat) :
    ∀ (vs : List Value) (d : GoMap), vs.length = 2 * n →
      ((∃ e, dictLoop vs d = .error e) ↔
        ∃ i v, vs[2 * i]? = some v ∧ ∀ s, v ≠ .str s) := by
  induction n with
  | zero =>
    intro vs d hl
    have : vs = [] := List.length_eq_zero.mp (by simpa using hl)
    subst this
    simp [dictLoop]
  | succ n ih =>
    intro vs d hl
    match vs, hl with
    | a :: b :: rest, hl =>
      have hrest : rest.length = 2 * n := by simp at hl; omega
      cases a with
      | str k =>
        simp only [dictLoop]
        rw [ih rest (mapSet d k b) hrest]
        constructor
        · rintro ⟨i, v, hv, hs⟩
          exact ⟨i + 1, v, by
            have : 2 * (i + 1) = 2 * i + 1 + 1 := by ring
            rw [this]; simpa using hv, hs⟩
        · rintro ⟨i, v, hv, hs⟩
          cases i with
          | zero =>
            simp at hv
            exact absurd hv.symm (hs k)
          | succ i =>
            have : 2 * (i + 1) = 2 * i + 1 + 1 := by ring
            rw [this] at hv
            exact ⟨i, v, by simpa using hv, hs⟩
      | enum e =>
        simp only [dictLoop]
        exact ⟨fun _ => ⟨0, .enum e, by simp, by intro s h; cases h⟩, fun _ => ⟨_, rfl⟩⟩
      | nil =>
        simp only [dictLoop]
        exact ⟨fun _ => ⟨0, .nil, by simp, by intro s h; cases h⟩, fun _ => ⟨_, rfl⟩⟩

theorem getElem?_pair_even (x y : Value) (rest : List Value) (i : Nat) :
    (x :: y :: rest)[2 * (i + 1)]? = rest[2 * i]? := by
  have : 2 * (i + 1) = 2 * i + 1 + 1 := by ring
  rw [this]
  simp

theorem getElem?_pair_odd (x y : Value) (rest : List Value) (i : Nat) :
    (x :: y :: rest)[2 * (i + 1) + 1]? = rest[2 * i + 1]? := by
  have : 2 * (i + 1) + 1 = 2 * i + 1 + 1 + 1 := by ring
  rw [this]
  simp

theorem dictLoop_ok_lookup (n : Nat) :
    ∀ (vs : List Value) (d m : GoMap), vs.length = 2 * n → dictLoop vs d = .ok m →
      ∀ (k : String) (v : Value), (mapGet m k = some v ↔
        (∃ i, vs[2 * i]? = some (.str k) ∧ vs[2 * i + 1]? = some v ∧
          ∀ j, i < j → vs[2 * j]? ≠ some (.str k)) ∨
        ((∀ j, vs[2 * j]? ≠ some (.str k)) ∧ mapGet d k = some v)) := by
  induction n with
  | zero =>
    intro vs d m hl h k v
    have : vs = [] := List.length_eq_zero.mp (by simpa using hl)
    subst this
    simp only [dictLoop, Except.ok.injEq] at h
    subst h
    simp
  | succ n ih =>
    intro vs d m hl h k v
    match vs, hl, h with
    | .str a :: b :: rest, hl, h =>
      have hrest : rest.length = 2 * n := by simp at hl; omega
      simp only [dictLoop] at h
      rw [ih rest (mapSet d a b) m hrest h k v, mapGet_mapSet]
      constructor
      · rintro (⟨i, h1, h2, h3⟩ | ⟨h1, h2⟩)
        · refine Or.inl ⟨i + 1, ?_, ?_, ?_⟩
          · rw [getElem?_pair_even]; exact h1
          · rw [getElem?_pair_odd]; exact h2
          · intro j hj
            obtain ⟨j2, rfl⟩ : ∃ j2, j = j2 + 1 := ⟨j - 1, by omega⟩
            rw [getElem?_pair_even]
            exact h3 j2 (by omega)
        · by_cases hk : k = a
          · subst hk
            rw [if_pos rfl] at h2
            refine Or.inl ⟨0, by simp, by simpa using h2, ?_⟩
            intro j hj
            obtain ⟨j2, rfl⟩ : ∃ j2, j = j2 + 1 := ⟨j - 1, by omega⟩
            rw [getElem?_pair_even]
            exact h1 j2
          · rw [if_neg hk] at h2
            refine Or.inr ⟨?_, h2⟩
            intro j
            cases j with
            | zero =>
              simp only [Nat.mul_zero, List.getElem?_cons_zero, ne_eq, Option.some.injEq,
                Value.str.injEq]
              exact fun h => hk h.symm
            | succ j2 =>
              rw [getElem?_pair_even]
              exact h1 j2
      · rintro (⟨i, h1, h2, h3⟩ | ⟨h1, h2⟩)
        · cases i with
          | zero =>
            simp only [Nat.mul_zero, List.getElem?_cons_zero, Option.some.injEq,
              Value.str.injEq] at h1
            subst h1
            simp only [Nat.mul_zero, Nat.zero_add, List.getElem?_cons_succ,
              List.getElem?_cons_zero, Option.some.injEq] at h2
            refine Or.inr ⟨?_, by rw [if_pos rfl, h2]⟩
            intro j
            have := h3 (j + 1) (by omega)
            rwa [getElem?_pair_even] at this
          | succ i2 =>
            rw [getElem?_pair_even] at h1
            rw [getElem?_pair_odd] at h2
            refine Or.inl ⟨i2, h1, h2, ?_⟩
            intro j hj
            have := h3 (j + 1) (by omega)
            rwa [getElem?_pair_even] at this
        · have hk : k ≠ a := by
            intro hk
            have := h1 0
            simp [hk] at this
          refine Or.inr ⟨?_, by rw [if_neg hk]; exact h2⟩
          intro j
          have := h1 (j + 1)
          rwa [getElem?_pair_even] at this
    | .enum e :: b :: rest, hl, h => simp [dictLoop] at h
    | .nil :: b :: rest, hl, h => simp [dictLoop] at h

theorem dict_odd (vs : List Value) (h : vs.length % 2 ≠ 0) :
    dict vs = .error "invalid dict call" := by
  simp [dict, h]

theorem dict_even (vs : List Value) (h : vs.length % 2 = 0) : dict vs = dictLoop vs [] := by
  simp [dict, h]

/-- C19: `dict` fails exactly when it is given an odd number of values or a value at an
even position `2i` that is not a string (an odd number gives `invalid dict call`);
otherwise it returns a map in which a key is bound to the value at position `2i+1` of
the last pair whose key, at position `2i`, it is; and the call the template makes,
`dict "Enum" e "Indent" s`, returns the map of `Enum` to `e` and `Indent` to `s`. -/
theorem dict_spec :
    (∀ vs : List Value, (∃ err, dict vs = .error err) ↔
      (vs.length % 2 ≠ 0 ∨ ∃ i v, vs[2 * i]? = some v ∧ ∀ s, v ≠ .str s)) ∧
    (∀ vs : List Value, vs.length % 2 ≠ 0 → dict vs = .error "invalid dict call") ∧
    (∀ (vs : List Value) (m : GoMap), dict vs = .ok m →
      ∀ (k : String) (v : Value), (mapGet m k = some v ↔
        ∃ i, vs[2 * i]? = some (.str k) ∧ vs[2 * i + 1]? = some v ∧
          ∀ j, i < j → vs[2 * j]? ≠ some (.str k))) ∧
    (∀ (e : EnumDescriptorProto) (s : String),
      dict [.str "Enum", .enum e, .str "Indent", .str s] =
        .ok [("Indent", .str s), ("Enum", .enum e)] ∧
      mapGet [("Indent", .str s), ("Enum", .enum e)] "Enum" = some (.enum e) ∧
      mapGet [("Indent", .str s), ("Enum", .enum e)] "Indent" = some (.str s)) := by
  refine ⟨?_, dict_odd, ?_, ?_⟩
  · intro vs
    by_cases h : vs.length % 2 = 0
    · rw [dict_even vs h, dictLoop_error_iff (vs.length / 2) vs [] (by omega)]
      simp [h]
    · rw [dict_odd vs h]
      simp [h]
  · intro vs m hm k v
    by_cases h : vs.length % 2 = 0
    · rw [dict_even vs h] at hm
      rw [dictLoop_ok_lookup (vs.length / 2) vs [] m (by omega) hm k v]
      simp [mapGet]
    · rw [dict_odd vs h] at hm
      cases hm
  · intro e s
    refine ⟨?_, ?_, ?_⟩
    · have hne : ("Enum" != "Indent") = true := by decide
      simp [dict, dictLoop, mapSet, hne]
    · simp [mapGet, List.lookup]
    · simp [mapGet, List.lookup]

/-- Witness of C19: in `dict "a" "1" "b" "2" "a" "3"` the later pair of `a` overrides the
earlier one. -/
theorem dict_spec_witness :
    dict [.str "a", .str "1", .str "b", .str "2", .str "a", .str "3"] =
        .ok [("a", .str "3"), ("b", .str "2")] ∧
      mapGet [("a", .str "3"), ("b", .str "2")] "a" = some (.str "3") :=
  ⟨rfl,
   (dict_spec.2.2.1 [.str "a", .str "1", .str "b", .str "2", .str "a", .str "3"]
      [("a", .str "3"), ("b", .str "2")] rfl "a" (.str "3")).mpr
     ⟨2, rfl, rfl, fun j hj => by
       rw [List.getElem?_eq_none (by simp; omega)]
       simp⟩⟩

end ProtocGenEsp
